import Mathlib

/-!
Verification of the `doc_crawler` crawl orchestration core.

This file gives a shallow embedding, in Lean 4, of the crawl orchestration core of
`crawler.py` (PieBru/doc_crawler), and proves or refutes the testable properties stated
in the design specification.

Conventions of the embedding:

* Strings are manipulated as `List Char` in the parsing layer (`urllib.parse` model) and
  as `String` at the API layer; `String` in this Lean version is a structure holding a
  `List Char`, so conversions are definitional.
* Python machine integers are modelled as `Nat` (no overflow is reachable in the modelled
  code paths).  The only non-integer arithmetic in the core, `MAX_PAGES * 1.5`, is exact
  in IEEE double for every realistic page budget, so the comparison
  `len(visited)+len(queue) < MAX_PAGES*1.5` is embedded as `2*(v+q) < 3*MAX_PAGES`.
* Python `set` values whose iteration order the code observes are modelled as
  duplicate-free insertion-ordered lists (`setInsert`); only membership, size and "some
  iteration order" are ever used by the code.
* External collaborators (HTTP transport, BeautifulSoup, readability, `re` scope pattern,
  `fnmatch`, robots policy) are modelled as oracle functions supplied in `Config`/`World`,
  mirroring §6 of the specification.  Code raising exceptions is embedded in `Except`.
* The `urllib.parse` functions used by the core (`urlparse`, `urljoin`, `geturl`) are
  modelled faithfully after CPython 3.11 (`Lib/urllib/parse.py`), including the
  unsafe-byte removal, scheme validation, netloc/fragment/query/params splitting and the
  RFC-3986 relative-reference resolution of `urljoin`.  The IPv6-bracket `ValueError`
  paths are not modelled (no bracketed host occurs in any statement below).
-/

namespace Crawler

/-! ## `urllib.parse` model (CPython 3.11 `Lib/urllib/parse.py`) -/

/-- `_UNSAFE_URL_BYTES_TO_REMOVE = ["\t", "\r", "\n"]`: bytes removed from the url
(and the default scheme) at the start of `urlsplit`. -/
def unsafeUrlByte (c : Char) : Bool := c = '\t' || c = '\r' || c = '\n'

/-- `scheme_chars`: characters valid in a scheme after the initial letter. -/
def schemeChar (c : Char) : Bool := c.isAlpha || c.isDigit || c = '+' || c = '-' || c = '.'

/-- Split a char list at the first character satisfying `p`: returns `(pre, suf)` with
`l = pre ++ suf`, no char of `pre` satisfying `p`, and `suf` empty or starting with a
char satisfying `p`. -/
def splitAtFirst (p : Char → Bool) : List Char → List Char × List Char
  | [] => ([], [])
  | c :: cs =>
    if p c then ([], c :: cs)
    else
      let r := splitAtFirst p cs
      (c :: r.1, r.2)

/-- The scheme-splitting step of `urlsplit`:
`i = url.find(':')`; if `i > 0` and `url[0]` is an (ASCII) letter and every char of
`url[1:i]` is in `scheme_chars`, the scheme is `url[:i].lower()` and the remainder is
`url[i+1:]`; otherwise the (already cleaned) default scheme is kept. -/
def splitScheme (dflt url : List Char) : List Char × List Char :=
  let r := splitAtFirst (· = ':') url
  match r.2 with
  | [] => (dflt, url)
  | _ :: rest =>
    match r.1 with
    | [] => (dflt, url)
    | c0 :: ctl =>
      if c0.isAlpha && ctl.all schemeChar then ((c0 :: ctl).map Char.toLower, rest)
      else (dflt, url)

/-- `_splitnetloc` delimiters: the netloc extends to the first `'/'`, `'?'` or `'#'`. -/
def netlocDelim (c : Char) : Bool := c = '/' || c = '?' || c = '#'

/-- The netloc-splitting step: `if url[:2] == '//': netloc, url = _splitnetloc(url, 2)`. -/
def splitNetloc (url : List Char) : List Char × List Char :=
  if url.take 2 = ['/', '/'] then splitAtFirst netlocDelim (url.drop 2) else ([], url)

/-- `url.split('#', 1)` guarded by `'#' in url`: returns `(pre, fragment)`. -/
def splitFragment (url : List Char) : List Char × List Char :=
  let r := splitAtFirst (· = '#') url
  match r.2 with
  | [] => (url, [])
  | _ :: rest => (r.1, rest)

/-- `url.split('?', 1)` guarded by `'?' in url`: returns `(pre, query)`. -/
def splitQuery (url : List Char) : List Char × List Char :=
  let r := splitAtFirst (· = '?') url
  match r.2 with
  | [] => (url, [])
  | _ :: rest => (r.1, rest)

/-- The six components of CPython's `ParseResult` (as char lists). -/
structure ParseResultL where
  scheme : List Char
  netloc : List Char
  path : List Char
  params : List Char
  query : List Char
  fragment : List Char
deriving DecidableEq, Repr

/-- `urlsplit(url, scheme, allow_fragments=True)`, CPython 3.11 (`params` left empty). -/
def urlsplitL (dflt url : List Char) : ParseResultL :=
  let url := url.filter (fun c => !unsafeUrlByte c)
  let dflt := dflt.filter (fun c => !unsafeUrlByte c)
  let s := splitScheme dflt url
  let n := splitNetloc s.2
  let f := splitFragment n.2
  let q := splitQuery f.1
  { scheme := s.1, netloc := n.1, path := q.1, params := [], query := q.2, fragment := f.2 }

/-- `uses_params` (schemes for which `urlparse` splits `;params` off the path). -/
def usesParams : List (List Char) :=
  ["", "ftp", "hdl", "prospero", "http", "imap", "https", "shttp", "rtsp", "rtspu",
   "sip", "sips", "mms", "sftp", "tel"].map String.toList

/-- `uses_relative` (schemes for which `urljoin` resolves relative references). -/
def usesRelative : List (List Char) :=
  ["", "ftp", "http", "gopher", "nntp", "imap", "wais", "file", "https", "shttp",
   "mms", "prospero", "rtsp", "rtspu", "sftp", "svn", "svn+ssh", "ws", "wss"].map String.toList

/-- `uses_netloc` (schemes for which `urljoin` inherits the base netloc). -/
def usesNetloc : List (List Char) :=
  ["", "ftp", "http", "gopher", "nntp", "telnet", "imap", "wais", "file", "mms",
   "https", "shttp", "snews", "prospero", "rtsp", "rtspu", "rsync", "svn", "svn+ssh",
   "sftp", "nfs", "git", "git+ssh", "ws", "wss", "itms-services"].map String.toList

/-- Split `l` at its last occurrence of `c`: `some (pre, suf)` with
`l = pre ++ c :: suf` and `c ∉ suf`, or `none` if `c ∉ l`. -/
def splitAtLast (c : Char) (l : List Char) : Option (List Char × List Char) :=
  let r := splitAtFirst (· = c) l.reverse
  match r.2 with
  | [] => none
  | _ :: rest => some (rest.reverse, r.1.reverse)

/-- `_splitparams(url)`: split `;params` off the last path segment. -/
def splitparams (url : List Char) : List Char × List Char :=
  match splitAtLast '/' url with
  | some (a, b) =>
    -- `i = url.find(';', url.rfind('/'))` : first ';' at or after the last '/'
    let r := splitAtFirst (· = ';') b
    match r.2 with
    | [] => (url, [])                      -- `if i < 0: return url, ''`
    | _ :: rest => (a ++ '/' :: r.1, rest)
  | none =>
    let r := splitAtFirst (· = ';') url    -- `i = url.find(';')` (guarded by `';' in url`)
    match r.2 with
    | [] => (url, [])
    | _ :: rest => (r.1, rest)

/-- `urlparse(url, scheme, allow_fragments=True)`, CPython 3.11. -/
def urlparseL (dflt url : List Char) : ParseResultL :=
  let s := urlsplitL dflt url
  if s.scheme ∈ usesParams ∧ ';' ∈ s.path then
    let p := splitparams s.path
    { s with path := p.1, params := p.2 }
  else s

/-- `urlunsplit((scheme, netloc, url, query, fragment))`. -/
def urlunsplitL (scheme netloc url query fragment : List Char) : List Char :=
  let url :=
    if netloc ≠ [] ∨ (url ≠ [] ∧ url.take 2 = ['/', '/']) then
      let url := if url ≠ [] ∧ url.take 1 ≠ ['/'] then '/' :: url else url
      '/' :: '/' :: (netloc ++ url)
    else url
  let url := if scheme ≠ [] then scheme ++ ':' :: url else url
  let url := if query ≠ [] then url ++ '?' :: query else url
  if fragment ≠ [] then url ++ '#' :: fragment else url

/-- `urlunparse((scheme, netloc, url, params, query, fragment))`. -/
def urlunparseL (scheme netloc url params query fragment : List Char) : List Char :=
  let url := if params ≠ [] then url ++ ';' :: params else url
  urlunsplitL scheme netloc url query fragment

/-- `SplitResult.geturl()` for a parse result (used by `_replace(path=...).geturl()`). -/
def geturlL (p : ParseResultL) : List Char :=
  urlunparseL p.scheme p.netloc p.path p.params p.query p.fragment

/-- Python `str.split(sep)` for a one-char separator (`''.split` gives `['']`). -/
def pySplit (sep : Char) (l : List Char) : List (List Char) :=
  l.foldr
    (fun c acc =>
      if c = sep then [] :: acc
      else
        match acc with
        | [] => [[c]]
        | a :: as => (c :: a) :: as)
    [[]]

/-- Python `sep.join(parts)` for a one-char separator. -/
def pyJoin (sep : Char) : List (List Char) → List Char
  | [] => []
  | [x] => x
  | x :: y :: rest => x ++ sep :: pyJoin sep (y :: rest)

/-- `segments[1:-1] = filter(None, segments[1:-1])`: drop empty segments strictly
between the first and last element. -/
def filterMiddle : List (List Char) → List (List Char)
  | [] => []
  | [x] => [x]
  | x :: y :: rest => x :: filterMiddleGo (y :: rest)
where
  filterMiddleGo : List (List Char) → List (List Char)
  | [] => []
  | [y] => [y]
  | y :: z :: rest => if y = [] then filterMiddleGo (z :: rest) else y :: filterMiddleGo (z :: rest)

/-- `if base_parts[-1] != '': del base_parts[-1]`. -/
def delLastIfNonEmpty (l : List (List Char)) : List (List Char) :=
  match l.getLast? with
  | some x => if x = [] then l else l.dropLast
  | none => l

/-- The `resolved_path` loop of `urljoin`: `..` pops (ignoring underflow), `.` is
skipped, anything else is appended. -/
def resolveSegs (segs : List (List Char)) : List (List Char) :=
  segs.foldl
    (fun acc seg =>
      if seg = ['.', '.'] then acc.dropLast
      else if seg = ['.'] then acc
      else acc ++ [seg])
    []

/-- `urljoin(base, url)`, CPython 3.11. -/
def urljoinL (base url : List Char) : List Char :=
  if base = [] then url
  else if url = [] then base
  else
    let b := urlparseL [] base
    let r := urlparseL b.scheme url
    if r.scheme ≠ b.scheme ∨ r.scheme ∉ usesRelative then url
    else if r.scheme ∈ usesNetloc ∧ r.netloc ≠ [] then
      urlunparseL r.scheme r.netloc r.path r.params r.query r.fragment
    else
      let netloc := if r.scheme ∈ usesNetloc then b.netloc else r.netloc
      if r.path = [] ∧ r.params = [] then
        let query := if r.query = [] then b.query else r.query
        urlunparseL r.scheme netloc b.path b.params query r.fragment
      else
        let base_parts := delLastIfNonEmpty (pySplit '/' b.path)
        let segments :=
          if r.path.take 1 = ['/'] then pySplit '/' r.path
          else filterMiddle (base_parts ++ pySplit '/' r.path)
        let resolved := resolveSegs segments
        let resolved :=
          if segments.getLast? = some ['.', '.'] ∨ segments.getLast? = some ['.'] then
            resolved ++ [[]]
          else resolved
        let path := pyJoin '/' resolved
        let path := if path = [] then ['/'] else path
        urlunparseL r.scheme netloc path r.params r.query r.fragment

/-! ## Python string helpers used by the crawler -/

/-- Python `\s` on ASCII text (the crawler's data is ASCII after its own cleanup). -/
def pyIsSpace (c : Char) : Bool :=
  c = ' ' || c = '\t' || c = '\n' || c = '\r' || c = '\x0b' || c = '\x0c'

/-- `re.sub(r'\s+', ' ', s)`: collapse maximal whitespace runs to a single space.
`inRun` records whether the previous character belonged to a whitespace run. -/
def collapseWs : Bool → List Char → List Char
  | _, [] => []
  | inRun, c :: cs =>
    if pyIsSpace c then
      if inRun then collapseWs true cs else ' ' :: collapseWs true cs
    else c :: collapseWs false cs

/-- Python `str.strip()` (whitespace strip at both ends). -/
def pyStrip (l : List Char) : List Char :=
  ((l.dropWhile pyIsSpace).reverse.dropWhile pyIsSpace).reverse

/-- Python `str.strip('/')` (strip a given char at both ends). -/
def pyStripChar (c : Char) (l : List Char) : List Char :=
  ((l.dropWhile (· = c)).reverse.dropWhile (· = c)).reverse

/-- `s.replace('\r\n', '\n')`. -/
def replaceCRLF : List Char → List Char
  | '\r' :: '\n' :: rest => '\n' :: replaceCRLF rest
  | c :: rest => c :: replaceCRLF rest
  | [] => []

/-- Python `x or y` for an optional string `x` (`None` and `''` are falsy). -/
def pyOrStr (x : Option String) (y : String) : String :=
  match x with
  | none => y
  | some s => if s = "" then y else s

/-- Python `s.replace(a, b)` for one-char patterns. -/
def replaceChar (a b : Char) (s : String) : String :=
  (s.data.map (fun c => if c = a then b else c)).asString

/-! ## `crawler.py`: URL normalization and link filtering -/

/-- `normalize_url` (crawler.py:98-101) on char lists:
`parsed.scheme + "://" + parsed.netloc + parsed.path`. -/
def normalizeL (url : List Char) : List Char :=
  let parsed := urlparseL [] url
  parsed.scheme ++ ':' :: '/' :: '/' :: (parsed.netloc ++ parsed.path)

/-- `normalize_url(url)` (crawler.py:98-101). -/
def normalize_url (url : String) : String := (normalizeL url.data).asString

/-- The predicate tested by the adjacent-repetition block (crawler.py:194-197): some
three consecutive segments are identical.  NOTE: in the source the `continue` inside
that block (crawler.py:201) targets the inner `for i` loop — despite its comment "Skip
to the next a_tag in the outer loop" — so the block only emits a warning and never
filters the link; `extract_links` below therefore does not consult this predicate. -/
def hasAdjacentTriple : List (List Char) → Bool
  | a :: b :: c :: rest => (a = b && b = c) || hasAdjacentTriple (b :: c :: rest)
  | _ => false

/-- The run configuration consumed by the core (CLI surface of crawler.py).
`urlPatternMatch` stands for the compiled `URL_PATTERN.match` (external `re`), and
`fnmatch` for `fnmatch.fnmatch` (external). -/
structure Config where
  BASE_URL : String
  urlPatternMatch : String → Bool
  MAX_PAGES : Nat
  MAX_URL_LENGTH : Nat
  EXCLUDED_URLS : List String
  fnmatch : String → String → Bool
  SKIP_ADJACENT_REPETITIVE_PATHS : Bool
  REQUEST_RETRIES : Nat
  REQUEST_DELAY : Nat

/-- The body of the `for a_tag in soup.find_all('a', href=True)` loop of
`extract_links` (crawler.py:183-228), for one candidate `href`; `links` is the set
accumulated so far (insertion-ordered model of the Python set `links`).

The adjacent-repetitive-path block (crawler.py:189-201) is absent because its
`continue` only restarts the inner `for i` loop: with the guard enabled the block logs
a warning and falls through, so it never changes the returned set (see `hasAdjacentTriple`). -/
def processHref (cfg : Config) (visited : List String) (base_url : String)
    (links : List String) (href : String) : List String :=
  let href := (splitAtFirst (· = '#') href.data).1        -- href.split('#')[0]
  let abs_url := urljoinL base_url.data href              -- urljoin(base_url, href)
  let abs_url := normalizeL abs_url                        -- normalize_url(abs_url)
  let absS : String := abs_url.asString
  if cfg.urlPatternMatch absS ∧ absS ∉ visited then
    -- crawler.py:204: excessive URL length
    if absS.length > cfg.MAX_URL_LENGTH then links
    else
      -- crawler.py:209-218: excessive path segment repetition heuristic
      let path_segments := pySplit '/' (pyStripChar '/' (urlparseL [] abs_url).path)
      let segsRev := path_segments.reverse
      let last_segment := segsRev.headD []
      let lastThreeSame : Bool :=
        match segsRev with
        | a :: b :: c :: _ => a = b && b = c
        | _ => false
      if path_segments.length > 5 ∧
          (last_segment ≠ [] ∧ path_segments.length ≥ 3 ∧ lastThreeSame = true ∧
            path_segments.count last_segment > path_segments.length / 2) then links
      else
        -- crawler.py:221-228: exclusion globs, then `links.add(abs_url)`
        if cfg.EXCLUDED_URLS.any (fun pat => cfg.fnmatch absS pat) then links
        else if absS ∈ links then links else links ++ [absS]
  else links

/-- `extract_links(html, base_url)` (crawler.py:180-229).  The BeautifulSoup scan is
the external capability; `hrefs` is the list of `a[href]` attribute values of the page
in document order.  Returns the Python set `links` as an insertion-ordered list. -/
def extract_links (cfg : Config) (visited : List String) (hrefs : List String)
    (base_url : String) : List String :=
  hrefs.foldl (processHref cfg visited base_url) []

/-! ## `crawler.py`: markdown sibling probe, title extraction, fetch, resume loader -/

/-- `check_for_md_version(html_url_str)` (crawler.py:122-147).  `probe200` is the
external `requests.head` probe: `true` iff the request succeeds with status 200
(`false` covers both non-200 statuses and `RequestException`). -/
def check_for_md_version (probe200 : String → Bool) (html_url_str : String) :
    Option String :=
  let parsed := urlparseL [] html_url_str.data
  let path := parsed.path
  let md_path :=
    if path.getLast? = some '/' then path ++ "index.html.md".data
    else path ++ ".md".data
  let md_url : String :=
    (geturlL { parsed with path := md_path }).asString   -- parsed._replace(path=md_path).geturl()
  if probe200 md_url then some md_url else none

/-- `extract_title_from_html(html_content, url)` (crawler.py:108-120).  `soupTitle`
is the external BeautifulSoup capability: `.error ()` models the parser raising,
`.ok none` models a missing `<title>` tag or a `None` `.string`, `.ok (some t)` the
raw title text (Python then tests `t` for truthiness and whitespace-normalizes it). -/
def extract_title_from_html (soupTitle : String → Except Unit (Option String))
    (html_content : String) : Option String :=
  if html_content = "" then none                   -- `if not html_content: return None`
  else
    match soupTitle html_content with
    | .error _ => none                             -- logged at debug level, swallowed
    | .ok none => none
    | .ok (some t) =>
      if t = "" then none                          -- `if title_tag and title_tag.string`
      else some (pyStrip (collapseWs false t.data)).asString

/-- Outcome of one `requests.get` attempt inside `fetch_page`. -/
inductive FetchAttempt where
  | success (text : String)    -- 2xx/3xx response body
  | requestError               -- `requests.exceptions.RequestException` (incl. raise_for_status)
  | otherError                 -- any other exception
deriving DecidableEq, Repr

/-- The retry loop of `fetch_page` (crawler.py:159-176): `attempt` is the current
0-based index, `fuel` the number of loop iterations left (`R+1` initially), `sleeps`
the durations passed to `time.sleep` so far.  Returns
`(result, attempts made, sleeps)`. -/
def fetch_go (R D : Nat) (outcome : Nat → FetchAttempt) :
    Nat → Nat → List Nat → Option String × Nat × List Nat
  | attempt, 0, sleeps => (none, attempt, sleeps)   -- `for` loop exhausted (crawler.py:178)
  | attempt, fuel + 1, sleeps =>
    match outcome attempt with
    | .success t => (some t, attempt + 1, sleeps)
    | .requestError =>
      if attempt < R then
        fetch_go R D outcome (attempt + 1) fuel (sleeps ++ [D * (attempt + 1)])
      else (none, attempt + 1, sleeps)
    | .otherError => (none, attempt + 1, sleeps)

/-- `fetch_page(url)` (crawler.py:155-178) for a URL whose successive attempt outcomes
are given by `outcome`; `R` is `REQUEST_RETRIES`, `D` is `REQUEST_DELAY`. -/
def fetch_page (R D : Nat) (outcome : Nat → FetchAttempt) :
    Option String × Nat × List Nat :=
  fetch_go R D outcome 0 (R + 1) []

/-- Duplicate-free insertion-ordered model of Python `set.add`. -/
def setInsert (s : List String) (x : String) : List String :=
  if x ∈ s then s else s ++ [x]

/-- Model of Python `set.update`. -/
def setUpdate (s : List String) (xs : List String) : List String :=
  xs.foldl setInsert s

/-- The literal part of the resume regex `r"Successfully fetched: (https?://[^\s]+)"`. -/
def successLit : List Char := "Successfully fetched: ".data

/-- Try to match the resume regex at the start of `l`; returns `group(1)`. -/
def matchSuccessAt (l : List Char) : Option (List Char) :=
  if successLit.isPrefixOf l then
    let r := l.drop successLit.length
    if "https://".data.isPrefixOf r then
      let body := (r.drop 8).takeWhile (fun c => !pyIsSpace c)
      if body = [] then none else some ("https://".data ++ body)
    else if "http://".data.isPrefixOf r then
      let body := (r.drop 7).takeWhile (fun c => !pyIsSpace c)
      if body = [] then none else some ("http://".data ++ body)
    else none
  else none

/-- `success_pattern.search(line)` (crawler.py:243-245): leftmost match of
`r"Successfully fetched: (https?://[^\s]+)"`, returning `group(1)`. -/
def searchSuccess : List Char → Option (List Char)
  | [] => none
  | c :: rest =>
    match matchSuccessAt (c :: rest) with
    | some u => some u
    | none => searchSuccess rest

/-- `load_processed_urls_from_log(log_filepath)` (crawler.py:231-256).
`logLines = none` models a missing file or a read error (both degrade to the empty
set); `some lines` models the file's lines.  Each captured URL is normalized and added
to the visited set. -/
def load_processed_urls_from_log (logLines : Option (List String)) : List String :=
  match logLines with
  | none => []
  | some lines =>
    lines.foldl
      (fun visited line =>
        match searchSuccess line.data with
        | some url => setInsert visited (normalize_url url.asString)
        | none => visited)
      []

/-! ## `crawler.py`: the crawl loop -/

/-- One entry of `discovered_pages_for_llms_txt` (crawler.py:322-326). -/
structure PageRecord where
  title : String
  html_url : String
  md_url : Option String
  content_for_full_txt : String
  content_source_type : String
deriving DecidableEq, Repr

/-- The mutable crawl state (crawler.py:74-76 and the loop locals).  `visited_urls`
and `queue` are as in the source; `pages` is `discovered_pages_for_llms_txt`;
`processed` is `processed_pages_count`; `fetchLog` instruments every `fetch_page`
call (page HTML and markdown alternates), in order. -/
structure CrawlState where
  visited_urls : List String
  queue : List String
  pages : List PageRecord
  processed : Nat
  fetchLog : List String
deriving DecidableEq, Repr

/-- External collaborators of the crawl loop (§6 of the spec): robots permission,
transport, BeautifulSoup link scan, markdown existence probe, BeautifulSoup title
lookup, readability text extraction (which may raise — `crawler.py` does not guard
it). `fetchOutcome` is the overall result of `fetch_page` for a URL (the per-attempt
retry behavior is modelled separately by `fetch_page` above). -/
structure World where
  allowed : String → Bool
  fetchOutcome : String → Option String
  hrefs : String → List String
  probe200 : String → Bool
  soupTitle : String → Except Unit (Option String)
  extractText : String → Except String String

/-- The body of `for link in new_links:` (crawler.py:329-333): enqueue `link` iff it
is in neither the visited set nor the queue and
`len(visited_urls) + len(queue) < MAX_PAGES * 1.5` (embedded exactly as
`2*(v+q) < 3*MAX_PAGES`). -/
def enqueueStep (MAX_PAGES : Nat) (visited : List String) (q : List String)
    (link : String) : List String :=
  if link ∉ visited ∧ link ∉ q ∧ 2 * (visited.length + q.length) < 3 * MAX_PAGES then
    q ++ [link]
  else q

/-- The whole `for link in new_links:` loop (crawler.py:329-333). -/
def enqueue_links (MAX_PAGES : Nat) (visited : List String) (q : List String)
    (links : List String) : List String :=
  links.foldl (enqueueStep MAX_PAGES visited) q

/-- The content-acquisition block for a fetched page (crawler.py:299-326): title,
markdown sibling, content with HTML fallback.  Returns the new `PageRecord` and the
markdown fetch attempt (to instrument `fetchLog`), or propagates the exception raised
by the unguarded `extract_main_content` (crawler.py:103-106, called at 316). -/
def buildPage (world : World) (url html : String) :
    Except String (PageRecord × Option String) :=
  let page_title := pyOrStr (extract_title_from_html world.soupTitle html) url
  let md_url := check_for_md_version world.probe200 url
  -- crawler.py:305-312: try the markdown alternate first
  let mdContent : String × String :=
    match md_url with
    | some m =>
      match world.fetchOutcome m with
      | some raw =>
        if raw = "" then ("", "")                         -- `if raw_md_content:` — '' is falsy
        else ((pyStrip (replaceCRLF raw.data)).asString, "md")
      | none => ("", "")
    | none => ("", "")
  -- crawler.py:314-320: fall back to extracted HTML when no markdown content
  if mdContent.1 = "" then
    match world.extractText html with
    | .error e => .error e                                -- exception propagates: crawl aborts
    | .ok txt =>
      .ok ({ title := page_title, html_url := url, md_url := md_url,
             content_for_full_txt := (pyStrip (collapseWs false txt.data)).asString,
             content_source_type := "html" }, md_url)
  else
    .ok ({ title := page_title, html_url := url, md_url := md_url,
           content_for_full_txt := mdContent.1,
           content_source_type := mdContent.2 }, md_url)

/-- One iteration body of the `while` loop of `crawl` (crawler.py:278-337), for the
popped head `url` and remaining queue `rest`: the robots/visited skips, the fetch, the
page construction and the link enqueueing.  Returns the state for the next iteration,
or the exception propagating out of `extract_main_content`. -/
def crawl_step (cfg : Config) (world : World) (s : CrawlState) (url : String)
    (rest : List String) : Except String CrawlState :=
  let s := { s with queue := rest }                      -- `url = queue.pop(0)`
  if url ∈ s.visited_urls then .ok s                     -- `if url in visited_urls: continue`
  else if !world.allowed url then .ok s                  -- robots skip (not marked visited)
  else
    let s := { s with visited_urls := s.visited_urls ++ [url],  -- `visited_urls.add(url)`
                      fetchLog := s.fetchLog ++ [url] }
    match world.fetchOutcome url with
    | none => .ok s                                      -- all retries failed
    | some html =>
      if html = "" then .ok s                            -- `if not html:` — '' is falsy
      else
        match buildPage world url html with
        | .error e => .error e
        | .ok (page, mdFetched) =>
          let s :=
            { s with
              fetchLog := s.fetchLog ++ (match mdFetched with
                                         | some m => [m]
                                         | none => []),
              pages := s.pages ++ [page] }
          let new_links := extract_links cfg s.visited_urls (world.hrefs html) url
          .ok { s with queue := enqueue_links cfg.MAX_PAGES s.visited_urls s.queue new_links,
                       processed := s.processed + 1 }

/-- The `while` loop of `crawl` (crawler.py:277-337).  `fuel` bounds the number of
iterations; `crawl` supplies fuel exceeding the loop's iteration bound (see the
halting theorems below), so the fuel-exhausted branch is never the final answer of
`crawl`. -/
def crawl_loop (cfg : Config) (world : World) :
    Nat → CrawlState → Except String CrawlState
  | 0, s => .ok s
  | fuel + 1, s =>
    -- `while queue and len(visited_urls) < MAX_PAGES and processed_pages_count < MAX_PAGES`
    match s.queue with
    | [] => .ok s
    | url :: rest =>
      if s.visited_urls.length < cfg.MAX_PAGES ∧ s.processed < cfg.MAX_PAGES then
        match crawl_step cfg world s url rest with
        | .error e => .error e
        | .ok s' => crawl_loop cfg world fuel s'
      else .ok s

/-- An iteration bound for `crawl_loop` (proved sufficient in `crawl_loop_halting`):
every iteration strictly decreases
`queue.length + (MAX_PAGES - processed) * (3*MAX_PAGES + 2)`. -/
def crawlFuel (cfg : Config) (s : CrawlState) : Nat :=
  s.queue.length + (cfg.MAX_PAGES - s.processed) * (3 * cfg.MAX_PAGES + 2) + 1

/-- `crawl(restart_mode)` (crawler.py:258-339, state initialization and loop; the
output rendering of lines 341-383 is modelled separately by `render_llms_txt`).
`logLines` is the content of `LOG_FILE` handed to the Resume Loader in restart mode. -/
def crawl (cfg : Config) (world : World) (restart_mode : Bool)
    (logLines : Option (List String)) : Except String CrawlState :=
  let visited0 : List String := []
  let visited0 :=
    if restart_mode then setUpdate visited0 (load_processed_urls_from_log logLines)
    else visited0
  let s0 : CrawlState :=
    { visited_urls := visited0, queue := [cfg.BASE_URL], pages := [], processed := 0,
      fetchLog := [] }
  crawl_loop cfg world (crawlFuel cfg s0) s0

/-! ## `crawler.py`: llms.txt index rendering -/

/-- `page_info['md_url'] if page_info['md_url'] else page_info['html_url']`
(crawler.py:351). -/
def linkUrlToUse (p : PageRecord) : String :=
  match p.md_url with
  | some m => m
  | none => p.html_url

/-- Title sanitization for the Markdown link (crawler.py:353). -/
def sanitizeTitle (t : String) : String :=
  replaceChar ']' ')' (replaceChar '[' '(' t)

/-- One index entry line (crawler.py:349-356). -/
def indexEntry (p : PageRecord) : String :=
  let description :=
    if p.md_url.isSome then " (Markdown version link)" else " (HTML page link)"
  "- [" ++ sanitizeTitle p.title ++ "](" ++ linkUrlToUse p ++ "): Source" ++
    description ++ "\n"

/-- The link target of each rendered index entry, in order (what `render_llms_txt`
points each entry at). -/
def indexLinkUrls (pages : List PageRecord) : List String :=
  pages.map linkUrlToUse

/-- The `llms.txt` index document (crawler.py:341-359). -/
def render_llms_txt (siteTitle siteSummary details : String)
    (pages : List PageRecord) : String :=
  let header := "# " ++ siteTitle ++ "\n\n" ++ "> " ++ siteSummary ++ "\n\n" ++
    details ++ "\n\n"
  if pages = [] then header
  else header ++ "## Discovered Pages\n\n" ++ String.join (pages.map indexEntry)

/-! ## Auxiliary predicates for the statements and proofs -/

/-- A char list that would be accepted as a scheme by `splitScheme`. -/
def isValidScheme : List Char → Bool
  | [] => false
  | c :: cs => c.isAlpha && cs.all schemeChar

/-- A path with no `';'` in its final segment (after the last `'/'`, or anywhere if it
has no `'/'`): exactly the paths `_splitparams` leaves unchanged. -/
def paramFree (l : List Char) : Prop :=
  match splitAtLast '/' l with
  | some (_, b) => ';' ∉ b
  | none => ';' ∉ l

instance (l : List Char) : Decidable (paramFree l) := by
  unfold paramFree; split <;> infer_instance

/-- A URL that can legitimately sit in the Visited Set: the seed (enqueued verbatim by
`crawl`) or the image of `normalize_url` (every URL entering via `extract_links` or
the Resume Loader). -/
def VisitedOK (cfg : Config) (u : String) : Prop :=
  u = cfg.BASE_URL ∨ ∃ w, u = normalize_url w

/-- Invariant of the crawl loop used for C5/C10: provenance of visited/queued URLs,
duplicate-freedom of the page list, and the shape of every page record. -/
structure LoopInv (cfg : Config) (world : World) (s : CrawlState) : Prop where
  visited_ok : ∀ u ∈ s.visited_urls, VisitedOK cfg u
  queue_ok : ∀ u ∈ s.queue, VisitedOK cfg u
  pages_nodup : (s.pages.map PageRecord.html_url).Nodup
  pages_visited : ∀ p ∈ s.pages, p.html_url ∈ s.visited_urls
  pages_shape : ∀ p ∈ s.pages, ∃ html, world.fetchOutcome p.html_url = some html ∧
    html ≠ "" ∧
    p.title = pyOrStr (extract_title_from_html world.soupTitle html) p.html_url ∧
    p.md_url = check_for_md_version world.probe200 p.html_url

/-- Strict decrease measure of one `crawl_loop` iteration (`crawlFuel` exceeds it). -/
def loopMeasure (cfg : Config) (s : CrawlState) : Nat :=
  s.queue.length + (cfg.MAX_PAGES - s.processed) * (3 * cfg.MAX_PAGES + 2)

/-! ## Concrete scenarios used by the claim theorems -/

/-- A concrete stand-in for the compiled scope regex `^https?://example\.com`
(on the URLs of the scenarios below only the `https` branch is exercised). -/
def examplePattern : String → Bool := fun u =>
  "https://example.com".data.isPrefixOf u.data

/-- A configuration with the adjacent-repetition guard disabled (scenario for C1). -/
def c1Cfg : Config :=
  { BASE_URL := "https://example.com/", urlPatternMatch := examplePattern,
    MAX_PAGES := 1000, MAX_URL_LENGTH := 2000, EXCLUDED_URLS := [],
    fnmatch := fun _ _ => false, SKIP_ADJACENT_REPETITIVE_PATHS := false,
    REQUEST_RETRIES := 3, REQUEST_DELAY := 1 }

/-- C2's configuration with the adjacent-repetition guard enabled. -/
def c2CfgOn : Config :=
  { BASE_URL := "https://example.com/", urlPatternMatch := examplePattern,
    MAX_PAGES := 1000, MAX_URL_LENGTH := 2000, EXCLUDED_URLS := [],
    fnmatch := fun _ _ => false, SKIP_ADJACENT_REPETITIVE_PATHS := true,
    REQUEST_RETRIES := 3, REQUEST_DELAY := 1 }

/-- C2's configuration with the adjacent-repetition guard disabled. -/
def c2CfgOff : Config :=
  { c2CfgOn with SKIP_ADJACENT_REPETITIVE_PATHS := false }

/-- The resume log line exactly as the claim words it (lowercase marker). -/
def c3LogLineLower : String := "successfully fetched: https://example.com/x"

/-- The resume log line as `crawl` actually writes it (crawler.py:297). -/
def c3LogLine : String :=
  "2024-01-01 10:00:00,000 - INFO - crawler.crawl - Successfully fetched: https://example.com/x"

/-- A world for resume witnesses: nothing is allowed, nothing fetches. -/
def quietWorld : World :=
  { allowed := fun _ => false, fetchOutcome := fun _ => none, hrefs := fun _ => [],
    probe200 := fun _ => false, soupTitle := fun _ => .ok none,
    extractText := fun _ => .ok "" }

/-- C3's witness configuration: seed `https://example.com/x`. -/
def c3Cfg : Config :=
  { c1Cfg with BASE_URL := "https://example.com/x", MAX_PAGES := 10 }

/-- A world in which the C3 seed is allowed and fetches, so that a crawl that does
not resume it can be told apart from one that does. -/
def c3FetchWorld : World :=
  { allowed := fun _ => true,
    fetchOutcome := fun u => if u = "https://example.com/x" then some "<x>" else none,
    hrefs := fun _ => [], probe200 := fun _ => false,
    soupTitle := fun _ => .ok none,
    extractText := fun _ => .ok "" }

/-- C4's counterexample configuration. -/
def c4Cfg : Config :=
  { c1Cfg with BASE_URL := "https://example.com/", MAX_PAGES := 5 }

/-- C4's counterexample world: the page fetches, has no markdown sibling, and
readability (`extract_main_content`, crawler.py:103-106) raises on its HTML. -/
def c4World : World :=
  { allowed := fun _ => true,
    fetchOutcome := fun u => if u = "https://example.com/" then some "<p>x" else none,
    hrefs := fun _ => [], probe200 := fun _ => false,
    soupTitle := fun _ => .ok none,
    extractText := fun _ => .error "lxml document is empty" }

/-- C4's witness world: every title extraction raises, content extraction succeeds. -/
def c4TitleThrowWorld : World :=
  { allowed := fun _ => true,
    fetchOutcome := fun u => if u = "https://example.com/" then some "<p>x" else none,
    hrefs := fun _ => [], probe200 := fun _ => false,
    soupTitle := fun _ => .error (),
    extractText := fun _ => .ok "body text" }

/-- C5's counterexample configuration: the seed URL carries a query string. -/
def c5Cfg : Config :=
  { c1Cfg with BASE_URL := "https://example.com/?q=1", MAX_PAGES := 5 }

/-- C5's counterexample world: the seed page links to `/d/` and `/d/index.html`,
whose markdown siblings are the same URL `/d/index.html.md`, which exists. -/
def c5World : World :=
  { allowed := fun _ => true,
    fetchOutcome := fun u =>
      if u = "https://example.com/?q=1" then some "<seed>"
      else if u = "https://example.com/d/" then some "<d>"
      else if u = "https://example.com/d/index.html" then some "<dih>"
      else if u = "https://example.com/d/index.html.md" then some "MD BODY"
      else none,
    hrefs := fun h =>
      if h = "<seed>" then
        ["https://example.com/d/", "https://example.com/d/index.html"]
      else [],
    probe200 := fun m => m = "https://example.com/d/index.html.md",
    soupTitle := fun _ => .ok none,
    extractText := fun h => .ok ("text of " ++ h) }

/-- A one-page world for the C10 witness. -/
def c10World : World :=
  { allowed := fun _ => true,
    fetchOutcome := fun u => if u = "https://example.com/" then some "<root>" else none,
    hrefs := fun _ => [], probe200 := fun _ => false,
    soupTitle := fun _ => .ok (some "  A   Title "),
    extractText := fun _ => .ok "body" }

/-- C10's witness configuration. -/
def c10Cfg : Config :=
  { c1Cfg with BASE_URL := "https://example.com/", MAX_PAGES := 2 }

/-! # Theorems

First a layer of lemmas about the splitting primitives, then the properties of the
parsing pipeline, then the crawl-loop lemmas, and finally one theorem per claim. -/

theorem splitAtFirst_nil (p : Char → Bool) : splitAtFirst p [] = ([], []) := rfl

theorem splitAtFirst_cons_pos (p : Char → Bool) (c : Char) (cs : List Char)
    (h : p c = true) : splitAtFirst p (c :: cs) = ([], c :: cs) := by
  simp [splitAtFirst, h]

theorem splitAtFirst_cons_neg (p : Char → Bool) (c : Char) (cs : List Char)
    (h : p c = false) :
    splitAtFirst p (c :: cs) =
      ((c :: (splitAtFirst p cs).1, (splitAtFirst p cs).2)) := by
  simp [splitAtFirst, h]

theorem splitAtFirst_append_eq (p : Char → Bool) (l : List Char) :
    (splitAtFirst p l).1 ++ (splitAtFirst p l).2 = l := by
  induction l with
  | nil => rfl
  | cons c cs ih =>
    by_cases h : p c
    · simp [splitAtFirst_cons_pos p c cs h]
    · simp only [splitAtFirst_cons_neg p c cs (by simpa using h)]
      simpa using ih

theorem splitAtFirst_fst_not (p : Char → Bool) (l : List Char) :
    ∀ c ∈ (splitAtFirst p l).1, p c = false := by
  induction l with
  | nil => simp [splitAtFirst]
  | cons c cs ih =>
    by_cases h : p c
    · simp [splitAtFirst_cons_pos p c cs h]
    · simp only [splitAtFirst_cons_neg p c cs (by simpa using h)]
      intro x hx
      rcases List.mem_cons.mp hx with rfl | hx
      · simpa using h
      · exact ih x hx

theorem splitAtFirst_snd_head (p : Char → Bool) (l : List Char) :
    ∀ c cs, (splitAtFirst p l).2 = c :: cs → p c = true := by
  induction l with
  | nil => simp [splitAtFirst]
  | cons a as ih =>
    by_cases h : p a
    · simp only [splitAtFirst_cons_pos p a as h]
      intro c cs hc
      cases hc
      exact h
    · simp only [splitAtFirst_cons_neg p a as (by simpa using h)]
      exact ih

theorem splitAtFirst_of_forall_neg (p : Char → Bool) (l : List Char)
    (h : ∀ c ∈ l, p c = false) : splitAtFirst p l = (l, []) := by
  induction l with
  | nil => rfl
  | cons c cs ih =>
    rw [splitAtFirst_cons_neg p c cs (h c (by simp))]
    rw [ih (fun x hx => h x (by simp [hx]))]

theorem splitAtFirst_append_of_forall_neg (p : Char → Bool) (a b : List Char)
    (h : ∀ c ∈ a, p c = false) :
    splitAtFirst p (a ++ b) = (a ++ (splitAtFirst p b).1, (splitAtFirst p b).2) := by
  induction a with
  | nil => simp
  | cons c cs ih =>
    rw [List.cons_append, splitAtFirst_cons_neg p c _ (h c (by simp)),
      ih (fun x hx => h x (by simp [hx]))]
    simp

theorem splitAtFirst_append_found (p : Char → Bool) (a : List Char) (c : Char)
    (b tail : List Char) (ha : splitAtFirst p a = (b, c :: tail)) (extra : List Char) :
    splitAtFirst p (a ++ extra) = (b, c :: (tail ++ extra)) := by
  have heq := splitAtFirst_append_eq p a
  rw [ha] at heq
  have hb : ∀ x ∈ b, p x = false := by
    have := splitAtFirst_fst_not p a
    rw [ha] at this
    exact this
  have hc : p c = true := splitAtFirst_snd_head p a c tail (by rw [ha])
  subst heq
  rw [List.append_assoc, splitAtFirst_append_of_forall_neg p b _ hb,
    List.cons_append, splitAtFirst_cons_pos p c _ hc]
  simp

theorem splitAtFirst_sublist_fst (p : Char → Bool) (l : List Char) :
    ∀ c ∈ (splitAtFirst p l).1, c ∈ l := by
  intro c hc
  have := splitAtFirst_append_eq p l
  rw [← this]
  exact List.mem_append.mpr (Or.inl hc)

theorem splitAtFirst_sublist_snd (p : Char → Bool) (l : List Char) :
    ∀ c ∈ (splitAtFirst p l).2, c ∈ l := by
  intro c hc
  have := splitAtFirst_append_eq p l
  rw [← this]
  exact List.mem_append.mpr (Or.inr hc)

/-! ### Character arithmetic (for `str.lower()` and the scheme character set) -/

theorem char_toNat_inj {c d : Char} (h : c.toNat = d.toNat) : c = d :=
  Char.ext (UInt32.toNat.inj h)

theorem char_eq_iff_toNat {c d : Char} : c = d ↔ c.toNat = d.toNat :=
  ⟨fun h => h ▸ rfl, char_toNat_inj⟩

theorem char_isUpper_iff {c : Char} : c.isUpper = true ↔ 65 ≤ c.toNat ∧ c.toNat ≤ 90 := by
  simp [Char.isUpper, UInt32.le_def, BitVec.le_def, Char.toNat, UInt32.toNat]

theorem char_isLower_iff {c : Char} : c.isLower = true ↔ 97 ≤ c.toNat ∧ c.toNat ≤ 122 := by
  simp [Char.isLower, UInt32.le_def, BitVec.le_def, Char.toNat, UInt32.toNat]

theorem char_isDigit_iff {c : Char} : c.isDigit = true ↔ 48 ≤ c.toNat ∧ c.toNat ≤ 57 := by
  simp [Char.isDigit, UInt32.le_def, BitVec.le_def, Char.toNat, UInt32.toNat]

theorem char_isAlpha_iff {c : Char} :
    c.isAlpha = true ↔ (65 ≤ c.toNat ∧ c.toNat ≤ 90) ∨ (97 ≤ c.toNat ∧ c.toNat ≤ 122) := by
  simp [Char.isAlpha, char_isUpper_iff, char_isLower_iff]

theorem char_toNat_ofNat_valid {n : Nat} (h : n.isValidChar) : (Char.ofNat n).toNat = n := by
  simp [Char.ofNat, dif_pos h, Char.ofNatAux, Char.toNat, UInt32.toNat]

theorem toLower_toNat_of_upper {c : Char} (h : 65 ≤ c.toNat ∧ c.toNat ≤ 90) :
    c.toLower.toNat = c.toNat + 32 := by
  unfold Char.toLower
  rw [if_pos (by omega)]
  exact char_toNat_ofNat_valid (Or.inl (by omega))

theorem toLower_eq_self_of_not_upper {c : Char} (h : ¬(65 ≤ c.toNat ∧ c.toNat ≤ 90)) :
    c.toLower = c := by
  unfold Char.toLower
  rw [if_neg (by omega)]

theorem toLower_toLower (c : Char) : c.toLower.toLower = c.toLower := by
  by_cases h : 65 ≤ c.toNat ∧ c.toNat ≤ 90
  · have h1 := toLower_toNat_of_upper h
    exact toLower_eq_self_of_not_upper (by omega)
  · rw [toLower_eq_self_of_not_upper h, toLower_eq_self_of_not_upper h]

theorem isAlpha_toLower (c : Char) : c.toLower.isAlpha = c.isAlpha := by
  by_cases h : 65 ≤ c.toNat ∧ c.toNat ≤ 90
  · have h1 := toLower_toNat_of_upper h
    have h2 : c.toLower.isAlpha = true := char_isAlpha_iff.mpr (by omega)
    have h3 : c.isAlpha = true := char_isAlpha_iff.mpr (by omega)
    rw [h2, h3]
  · rw [toLower_eq_self_of_not_upper h]

theorem char_decide_eq_iff {c d : Char} : (decide (c = d)) = true ↔ c.toNat = d.toNat := by
  rw [decide_eq_true_iff]
  exact char_eq_iff_toNat

theorem schemeChar_iff {c : Char} :
    schemeChar c = true ↔
      (65 ≤ c.toNat ∧ c.toNat ≤ 90) ∨ (97 ≤ c.toNat ∧ c.toNat ≤ 122) ∨
      (48 ≤ c.toNat ∧ c.toNat ≤ 57) ∨ c.toNat = 43 ∨ c.toNat = 45 ∨ c.toNat = 46 := by
  simp only [schemeChar, Bool.or_eq_true, char_isAlpha_iff, char_isDigit_iff,
    char_decide_eq_iff]
  tauto

theorem schemeChar_toLower (c : Char) : schemeChar c.toLower = schemeChar c := by
  by_cases h : 65 ≤ c.toNat ∧ c.toNat ≤ 90
  · have h1 := toLower_toNat_of_upper h
    have h2 : schemeChar c.toLower = true := schemeChar_iff.mpr (by omega)
    have h3 : schemeChar c = true := schemeChar_iff.mpr (by omega)
    rw [h2, h3]
  · rw [toLower_eq_self_of_not_upper h]

theorem unsafeUrlByte_iff {c : Char} :
    unsafeUrlByte c = true ↔ c.toNat = 9 ∨ c.toNat = 13 ∨ c.toNat = 10 := by
  simp only [unsafeUrlByte, Bool.or_eq_true, char_decide_eq_iff]
  rw [show ('\t'.toNat) = 9 from rfl, show ('\r'.toNat) = 13 from rfl,
    show ('\n'.toNat) = 10 from rfl]
  tauto

theorem unsafeUrlByte_toLower (c : Char) : unsafeUrlByte c.toLower = unsafeUrlByte c := by
  by_cases h : 65 ≤ c.toNat ∧ c.toNat ≤ 90
  · have h1 := toLower_toNat_of_upper h
    have h2 : unsafeUrlByte c.toLower = false := by
      rw [← Bool.not_eq_true]
      intro hc
      rw [unsafeUrlByte_iff] at hc
      omega
    have h3 : unsafeUrlByte c = false := by
      rw [← Bool.not_eq_true]
      intro hc
      rw [unsafeUrlByte_iff] at hc
      omega
    rw [h2, h3]
  · rw [toLower_eq_self_of_not_upper h]

theorem schemeChar_ne_colon {c : Char} (h : schemeChar c = true) : c ≠ ':' := by
  intro hc
  subst hc
  simp [schemeChar_iff] at h

theorem isAlpha_ne_colon {c : Char} (h : c.isAlpha = true) : c ≠ ':' := by
  intro hc
  subst hc
  simp [char_isAlpha_iff] at h

/-! ### `splitScheme` lemmas -/

theorem isValidScheme_mem_ne_colon {s : List Char} (h : isValidScheme s = true) :
    ∀ c ∈ s, c ≠ ':' := by
  match s with
  | [] => simp [isValidScheme] at h
  | c0 :: ctl =>
    simp only [isValidScheme, Bool.and_eq_true, List.all_eq_true] at h
    intro c hc
    rcases List.mem_cons.mp hc with rfl | hc
    · exact isAlpha_ne_colon h.1
    · exact schemeChar_ne_colon (h.2 c hc)

theorem isValidScheme_toLower {s : List Char} (h : isValidScheme s = true) :
    isValidScheme (s.map Char.toLower) = true := by
  match s with
  | [] => simp [isValidScheme] at h
  | c0 :: ctl =>
    simp only [isValidScheme, Bool.and_eq_true, List.all_eq_true] at h
    simp only [List.map_cons, isValidScheme, Bool.and_eq_true, List.all_eq_true]
    refine ⟨?_, ?_⟩
    · rw [isAlpha_toLower]
      exact h.1
    · intro c hc
      simp only [List.mem_map] at hc
      obtain ⟨a, ha, rfl⟩ := hc
      rw [schemeChar_toLower]
      exact h.2 a ha

theorem map_toLower_idem (s : List Char) :
    (s.map Char.toLower).map Char.toLower = s.map Char.toLower := by
  rw [List.map_map]
  apply List.map_congr_left
  intro c _
  exact toLower_toLower c

theorem splitScheme_valid {s : List Char} (h : isValidScheme s = true) (d r : List Char) :
    splitScheme d (s ++ ':' :: r) = (s.map Char.toLower, r) := by
  have hnc : ∀ c ∈ s, (fun x => decide (x = ':')) c = false := fun c hc =>
    decide_eq_false (isValidScheme_mem_ne_colon h c hc)
  have hsplit : splitAtFirst (· = ':') (s ++ ':' :: r) = (s, ':' :: r) := by
    rw [splitAtFirst_append_of_forall_neg _ _ _ hnc,
      splitAtFirst_cons_pos _ _ _ (by simp)]
    simp
  match s with
  | [] => simp [isValidScheme] at h
  | c0 :: ctl =>
    simp only [isValidScheme, Bool.and_eq_true, List.all_eq_true] at h
    simp only [splitScheme, hsplit]
    rw [if_pos]
    simp only [Bool.and_eq_true, List.all_eq_true]
    exact h

theorem splitScheme_cases (d url : List Char) :
    splitScheme d url = (d, url) ∨
    ∃ s r, url = s ++ ':' :: r ∧ isValidScheme s = true ∧
      splitScheme d url = (s.map Char.toLower, r) := by
  rcases hsplit : splitAtFirst (· = ':') url with ⟨pre, suf⟩
  have heq : pre ++ suf = url := by
    have := splitAtFirst_append_eq (· = ':') url
    rw [hsplit] at this
    exact this
  match suf with
  | [] => left; simp only [splitScheme, hsplit]
  | c :: cs =>
    have hc : c = ':' := by
      have := splitAtFirst_snd_head (· = ':') url c cs (by rw [hsplit])
      simpa using this
    subst hc
    match pre with
    | [] => left; simp only [splitScheme, hsplit]
    | c0 :: ctl =>
      by_cases hcond : (c0.isAlpha && ctl.all schemeChar) = true
      · right
        refine ⟨c0 :: ctl, cs, heq.symm, ?_, ?_⟩
        · simpa [isValidScheme] using hcond
        · simp only [splitScheme, hsplit]
          rw [if_pos hcond]
      · left
        simp only [splitScheme, hsplit]
        rw [if_neg hcond]

theorem splitScheme_append_sep (d u tail : List Char) (sep : Char)
    (hsep1 : schemeChar sep = false) (hsep2 : sep.isAlpha = false) (hsep3 : sep ≠ ':') :
    splitScheme d (u ++ sep :: tail) =
      ((splitScheme d u).1, (splitScheme d u).2 ++ sep :: tail) := by
  rcases hsplit : splitAtFirst (· = ':') u with ⟨pre, suf⟩
  have heq : pre ++ suf = u := by
    have := splitAtFirst_append_eq (· = ':') u
    rw [hsplit] at this
    exact this
  have hpre : ∀ c ∈ pre, (fun x => decide (x = ':')) c = false := by
    have := splitAtFirst_fst_not (fun x => decide (x = ':')) u
    rw [hsplit] at this
    exact this
  match suf with
  | [] =>
    -- no colon in `u`; `pre = u`
    have hpu : pre = u := by simpa using heq
    subst hpu
    have h2 : splitAtFirst (· = ':') (pre ++ sep :: tail) =
        (pre ++ (splitAtFirst (· = ':') (sep :: tail)).1,
         (splitAtFirst (· = ':') (sep :: tail)).2) :=
      splitAtFirst_append_of_forall_neg _ _ _ hpre
    rw [splitAtFirst_cons_neg _ _ _ (decide_eq_false hsep3)] at h2
    rcases htail : splitAtFirst (· = ':') tail with ⟨tpre, tsuf⟩
    rw [htail] at h2
    match tsuf with
    | [] =>
      simp only [splitScheme, hsplit, h2]
    | t :: ts =>
      simp only [splitScheme, hsplit, h2]
      match hu : pre with
      | [] =>
        simp only [List.nil_append]
        rw [if_neg (by simp [hsep2])]
      | c0 :: ctl =>
        simp only [List.cons_append]
        rw [if_neg]
        simp only [Bool.and_eq_true, List.all_eq_true, not_and]
        intro _ hall
        have := hall sep (by simp)
        rw [hsep1] at this
        exact absurd this (by simp)
  | c :: cs =>
    have h2 : splitAtFirst (· = ':') (u ++ sep :: tail) = (pre, c :: (cs ++ sep :: tail)) :=
      splitAtFirst_append_found _ _ _ _ _ hsplit _
    match pre with
    | [] => simp only [splitScheme, hsplit, h2]
    | c0 :: ctl =>
      by_cases hcond : (c0.isAlpha && ctl.all schemeChar) = true
      · simp only [splitScheme, hsplit, h2]
        rw [if_pos hcond, if_pos hcond]
      · simp only [splitScheme, hsplit, h2]
        rw [if_neg hcond, if_neg hcond]

/-! ### `splitNetloc`, `splitFragment`, `splitQuery`, `splitAtLast`, `splitparams` -/

theorem splitAtFirst_append_sep (p : Char → Bool) (X tail : List Char) (sep : Char)
    (hd : p sep = true) :
    splitAtFirst p (X ++ sep :: tail) =
      ((splitAtFirst p X).1, (splitAtFirst p X).2 ++ sep :: tail) := by
  rcases hsplit : splitAtFirst p X with ⟨pre, suf⟩
  match suf with
  | [] =>
    have hpre : pre = X := by
      have := splitAtFirst_append_eq p X
      rw [hsplit] at this
      simpa using this
    subst hpre
    have hnot : ∀ c ∈ pre, p c = false := by
      have := splitAtFirst_fst_not p pre
      rw [hsplit] at this
      exact this
    rw [splitAtFirst_append_of_forall_neg _ _ _ hnot, splitAtFirst_cons_pos _ _ _ hd]
    simp
  | c :: cs =>
    rw [splitAtFirst_append_found _ _ _ _ _ hsplit]
    simp

theorem splitNetloc_slash2 (X : List Char) :
    splitNetloc ('/' :: '/' :: X) = splitAtFirst netlocDelim X := by
  simp [splitNetloc]

theorem splitNetloc_of_ne (url : List Char) (h : url.take 2 ≠ ['/', '/']) :
    splitNetloc url = ([], url) := by
  simp [splitNetloc, h]

theorem splitNetloc_append_sep (r tail : List Char) (sep : Char)
    (hd : netlocDelim sep = true) (hs : sep ≠ '/') :
    splitNetloc (r ++ sep :: tail) = ((splitNetloc r).1, (splitNetloc r).2 ++ sep :: tail) := by
  match r with
  | '/' :: '/' :: X =>
    show splitNetloc ('/' :: '/' :: (X ++ sep :: tail)) = _
    rw [splitNetloc_slash2, splitNetloc_slash2, splitAtFirst_append_sep _ _ _ _ hd]
  | [] =>
    rw [List.nil_append, splitNetloc_of_ne [] (by simp), splitNetloc_of_ne _ (by
      cases tail <;> simp [List.take] <;> intro hc <;> simp_all)]
    simp
  | [a] =>
    rw [show [a] ++ sep :: tail = a :: sep :: tail by simp,
      splitNetloc_of_ne [a] (by simp [List.take]),
      splitNetloc_of_ne _ (by simp [List.take]; intro _ hc; exact hs hc)]
    simp
  | a :: b :: r' =>
    by_cases hab : a = '/' ∧ b = '/'
    · obtain ⟨rfl, rfl⟩ := hab
      show splitNetloc ('/' :: '/' :: (r' ++ sep :: tail)) = _
      rw [splitNetloc_slash2, splitNetloc_slash2, splitAtFirst_append_sep _ _ _ _ hd]
    · have hne' : (a :: b :: r').take 2 ≠ ['/', '/'] := by
        simp [List.take]
        intro h1 h2
        exact hab ⟨h1, h2⟩
      have hne : (a :: b :: (r' ++ sep :: tail)).take 2 ≠ ['/', '/'] := by
        simp [List.take]
        intro h1 h2
        exact hab ⟨h1, h2⟩
      rw [show (a :: b :: r') ++ sep :: tail = a :: b :: (r' ++ sep :: tail) by simp,
        splitNetloc_of_ne _ hne, splitNetloc_of_ne _ hne']
      simp

theorem splitFragment_of_no (url : List Char) (h : '#' ∉ url) :
    splitFragment url = (url, []) := by
  have hx : ∀ c ∈ url, (fun x => decide (x = '#')) c = false := fun c hc =>
    decide_eq_false (fun he => h (he ▸ hc))
  simp only [splitFragment, splitAtFirst_of_forall_neg _ _ hx]

theorem splitFragment_append (pre f : List Char) (h : '#' ∉ pre) :
    splitFragment (pre ++ '#' :: f) = (pre, f) := by
  have hx : ∀ c ∈ pre, (fun x => decide (x = '#')) c = false := fun c hc =>
    decide_eq_false (fun he => h (he ▸ hc))
  have h1 : splitAtFirst (fun x => decide (x = '#')) (pre ++ '#' :: f) = (pre, '#' :: f) := by
    rw [splitAtFirst_append_of_forall_neg _ _ _ hx, splitAtFirst_cons_pos _ _ _ (by simp)]
    simp
  simp only [splitFragment, h1]

theorem splitQuery_of_no (url : List Char) (h : '?' ∉ url) :
    splitQuery url = (url, []) := by
  have hx : ∀ c ∈ url, (fun x => decide (x = '?')) c = false := fun c hc =>
    decide_eq_false (fun he => h (he ▸ hc))
  simp only [splitQuery, splitAtFirst_of_forall_neg _ _ hx]

theorem splitQuery_append (pre q : List Char) (h : '?' ∉ pre) :
    splitQuery (pre ++ '?' :: q) = (pre, q) := by
  have hx : ∀ c ∈ pre, (fun x => decide (x = '?')) c = false := fun c hc =>
    decide_eq_false (fun he => h (he ▸ hc))
  have h1 : splitAtFirst (fun x => decide (x = '?')) (pre ++ '?' :: q) = (pre, '?' :: q) := by
    rw [splitAtFirst_append_of_forall_neg _ _ _ hx, splitAtFirst_cons_pos _ _ _ (by simp)]
    simp
  simp only [splitQuery, h1]

theorem splitAtLast_of_not_mem (c : Char) (l : List Char) (h : c ∉ l) :
    splitAtLast c l = none := by
  have hx : ∀ x ∈ l.reverse, (fun y => decide (y = c)) x = false := fun x hx =>
    decide_eq_false (fun he => h (he ▸ (List.mem_reverse.mp hx)))
  simp only [splitAtLast, splitAtFirst_of_forall_neg _ _ hx]

theorem splitAtLast_append (a b : List Char) (c : Char) (h : c ∉ b) :
    splitAtLast c (a ++ c :: b) = some (a, b) := by
  have hrev : (a ++ c :: b).reverse = b.reverse ++ c :: a.reverse := by
    simp
  have hx : ∀ x ∈ b.reverse, (fun y => decide (y = c)) x = false := fun x hx =>
    decide_eq_false (fun he => h (he ▸ (List.mem_reverse.mp hx)))
  have h1 : splitAtFirst (fun y => decide (y = c)) (b.reverse ++ c :: a.reverse) =
      (b.reverse, c :: a.reverse) := by
    rw [splitAtFirst_append_of_forall_neg _ _ _ hx, splitAtFirst_cons_pos _ _ _ (by simp)]
    simp
  simp only [splitAtLast, hrev, h1]
  simp

theorem splitAtFirst_snd_ne_nil (p : Char → Bool) (l : List Char) (x : Char)
    (hx : x ∈ l) (hpx : p x = true) : (splitAtFirst p l).2 ≠ [] := by
  intro hnil
  have heq := splitAtFirst_append_eq p l
  rw [hnil, List.append_nil] at heq
  have := splitAtFirst_fst_not p l x (by rw [heq]; exact hx)
  rw [hpx] at this
  exact absurd this (by simp)

theorem splitAtLast_none_not_mem {c : Char} {l : List Char}
    (h : splitAtLast c l = none) : c ∉ l := by
  intro hc
  have h2 : (splitAtFirst (fun y => decide (y = c)) l.reverse).2 ≠ [] :=
    splitAtFirst_snd_ne_nil _ _ c (List.mem_reverse.mpr hc) (by simp)
  rw [splitAtLast] at h
  rcases hr : (splitAtFirst (fun y => decide (y = c)) l.reverse).2 with _ | ⟨x, rest⟩
  · exact h2 hr
  · rw [hr] at h
    simp at h

theorem splitAtLast_eq_some {c : Char} {l a b : List Char}
    (h : splitAtLast c l = some (a, b)) : l = a ++ c :: b ∧ c ∉ b := by
  rcases hsplit : splitAtFirst (fun y => decide (y = c)) l.reverse with ⟨pre, suf⟩
  have heq : pre ++ suf = l.reverse := by
    have := splitAtFirst_append_eq (fun y => decide (y = c)) l.reverse
    rw [hsplit] at this
    exact this
  have hpre : ∀ x ∈ pre, (fun y => decide (y = c)) x = false := by
    have := splitAtFirst_fst_not (fun y => decide (y = c)) l.reverse
    rw [hsplit] at this
    exact this
  match suf with
  | [] =>
    rw [splitAtLast, hsplit] at h
    simp at h
  | x :: rest =>
    have hx : x = c := by
      have := splitAtFirst_snd_head (fun y => decide (y = c)) l.reverse x rest (by rw [hsplit])
      simpa using this
    subst hx
    rw [splitAtLast, hsplit] at h
    simp only [Option.some.injEq, Prod.mk.injEq] at h
    obtain ⟨ha, hb⟩ := h
    constructor
    · have hl : l = (pre ++ x :: rest).reverse := by
        rw [heq, List.reverse_reverse]
      rw [hl, List.reverse_append, List.reverse_cons, ← ha, ← hb]
      simp
    · intro hmem
      rw [← hb] at hmem
      have := hpre x (List.mem_reverse.mp hmem)
      simp at this

theorem splitparams_of_paramFree {l : List Char} (h : paramFree l) :
    splitparams l = (l, []) := by
  unfold paramFree at h
  rcases hsplit : splitAtLast '/' l with _ | ⟨a, b⟩
  · rw [hsplit] at h
    replace h : ';' ∉ l := h
    have hx : ∀ x ∈ l, (fun y => decide (y = ';')) x = false := fun x hx =>
      decide_eq_false (fun he => h (he ▸ hx))
    simp only [splitparams, hsplit, splitAtFirst_of_forall_neg _ _ hx]
  · rw [hsplit] at h
    replace h : ';' ∉ b := h
    have hx : ∀ x ∈ b, (fun y => decide (y = ';')) x = false := fun x hx =>
      decide_eq_false (fun he => h (he ▸ hx))
    simp only [splitparams, hsplit, splitAtFirst_of_forall_neg _ _ hx]

theorem splitparams_fst_paramFree (l : List Char) : paramFree ((splitparams l).1) := by
  rcases hsplit : splitAtLast '/' l with _ | ⟨a, b⟩
  · have hns : '/' ∉ l := splitAtLast_none_not_mem hsplit
    rcases hsp : splitAtFirst (fun x => decide (x = ';')) l with ⟨p, suf⟩
    have hpl : ∀ y ∈ p, y ∈ l := by
      have := splitAtFirst_sublist_fst (fun x => decide (x = ';')) l
      rw [hsp] at this
      exact this
    have hpn : ';' ∉ p := by
      intro hmem
      have h2 := splitAtFirst_fst_not (fun x => decide (x = ';')) l
      rw [hsp] at h2
      have := h2 ';' hmem
      simp at this
    match suf with
    | [] =>
      have hval : splitparams l = (l, []) := by
        simp only [splitparams, hsplit, hsp]
      rw [hval]
      have hp : p = l := by
        have := splitAtFirst_append_eq (fun x => decide (x = ';')) l
        rw [hsp] at this
        simpa using this
      unfold paramFree
      rw [hsplit]
      exact hp ▸ hpn
    | x :: rest =>
      have hval : splitparams l = (p, rest) := by
        simp only [splitparams, hsplit, hsp]
      rw [hval]
      unfold paramFree
      have hslash : '/' ∉ p := fun hc => hns (hpl _ hc)
      rw [splitAtLast_of_not_mem _ _ hslash]
      exact hpn
  · obtain ⟨hl, hnb⟩ := splitAtLast_eq_some hsplit
    rcases hsp : splitAtFirst (fun x => decide (x = ';')) b with ⟨bp, suf⟩
    have hbpb : ∀ y ∈ bp, y ∈ b := by
      have := splitAtFirst_sublist_fst (fun x => decide (x = ';')) b
      rw [hsp] at this
      exact this
    have hbpn : ';' ∉ bp := by
      intro hmem
      have h2 := splitAtFirst_fst_not (fun x => decide (x = ';')) b
      rw [hsp] at h2
      have := h2 ';' hmem
      simp at this
    match suf with
    | [] =>
      have hval : splitparams l = (l, []) := by
        simp only [splitparams, hsplit, hsp]
      rw [hval]
      have hbp : bp = b := by
        have := splitAtFirst_append_eq (fun x => decide (x = ';')) b
        rw [hsp] at this
        simpa using this
      unfold paramFree
      rw [hsplit]
      exact hbp ▸ hbpn
    | x :: rest =>
      have hval : splitparams l = (a ++ '/' :: bp, rest) := by
        simp only [splitparams, hsplit, hsp]
      rw [hval]
      unfold paramFree
      have hnbp : '/' ∉ bp := fun hc => hnb (hbpb _ hc)
      rw [splitAtLast_append _ _ _ hnbp]
      exact hbpn

theorem splitAtFirst_congr {p q : Char → Bool} {l : List Char}
    (h : ∀ c ∈ l, p c = q c) : splitAtFirst p l = splitAtFirst q l := by
  induction l with
  | nil => rfl
  | cons c cs ih =>
    have hc := h c (by simp)
    by_cases hp : p c = true
    · rw [splitAtFirst_cons_pos _ _ _ hp, splitAtFirst_cons_pos _ _ _ (hc ▸ hp)]
    · have hp' : p c = false := by simpa using hp
      rw [splitAtFirst_cons_neg _ _ _ hp', splitAtFirst_cons_neg _ _ _ (hc ▸ hp'),
        ih (fun x hx => h x (by simp [hx]))]

theorem splitAtLast_isSome_of_mem {c : Char} {l : List Char} (h : c ∈ l) :
    ∃ a b, splitAtLast c l = some (a, b) := by
  rcases hr : splitAtLast c l with _ | ⟨a, b⟩
  · exact absurd h (splitAtLast_none_not_mem hr)
  · exact ⟨a, b, rfl⟩

theorem splitAtLast_append_left {c : Char} {pre R aR bR : List Char}
    (hpre : c ∉ pre) (ha : splitAtLast c R = some (aR, bR)) :
    splitAtLast c (pre ++ R) = some (pre ++ aR, bR) := by
  obtain ⟨hR, hnb⟩ := splitAtLast_eq_some ha
  rw [hR, show pre ++ (aR ++ c :: bR) = (pre ++ aR) ++ c :: bR by simp]
  exact splitAtLast_append _ _ _ hnb

theorem paramFree_of_no_semi {l : List Char} (h : ';' ∉ l) : paramFree l := by
  unfold paramFree
  rcases hr : splitAtLast '/' l with _ | ⟨a, b⟩
  · exact h
  · obtain ⟨hl, _⟩ := splitAtLast_eq_some hr
    intro hmem
    exact h (by rw [hl]; simp [hmem])

/-! ### Characterization of the `urlsplit`/`urlparse` components -/

/-- All chars of `l` survive the unsafe-byte filter. -/
def cleanChars (l : List Char) : Prop := ∀ c ∈ l, unsafeUrlByte c = false

theorem filter_unsafe_eq_self {l : List Char} (h : cleanChars l) :
    l.filter (fun c => !unsafeUrlByte c) = l := by
  apply List.filter_eq_self.mpr
  intro a ha
  rw [h a ha]
  rfl

theorem cleanChars_filter (l : List Char) :
    cleanChars (l.filter (fun c => !unsafeUrlByte c)) := by
  intro c hc
  have := List.of_mem_filter hc
  simpa using this

theorem cleanChars_append {a b : List Char} (ha : cleanChars a) (hb : cleanChars b) :
    cleanChars (a ++ b) := by
  intro c hc
  rcases List.mem_append.mp hc with h | h
  · exact ha c h
  · exact hb c h

theorem cleanChars_subset {a b : List Char} (h : ∀ c ∈ a, c ∈ b) (hb : cleanChars b) :
    cleanChars a := fun c hc => hb c (h c hc)

theorem splitScheme_snd_subset (d url : List Char) :
    ∀ c ∈ (splitScheme d url).2, c ∈ url := by
  rcases splitScheme_cases d url with h | ⟨s, r, hurl, _, h⟩
  · rw [h]
    exact fun c hc => hc
  · rw [h, hurl]
    intro c hc
    simp [hc]

theorem splitNetloc_fst_subset (url : List Char) :
    ∀ c ∈ (splitNetloc url).1, c ∈ url := by
  unfold splitNetloc
  split
  · intro c hc
    have h1 := splitAtFirst_sublist_fst netlocDelim (url.drop 2) c hc
    exact List.drop_subset 2 url h1
  · simp

theorem splitNetloc_snd_subset (url : List Char) :
    ∀ c ∈ (splitNetloc url).2, c ∈ url := by
  unfold splitNetloc
  split
  · intro c hc
    have h1 := splitAtFirst_sublist_snd netlocDelim (url.drop 2) c hc
    exact List.drop_subset 2 url h1
  · exact fun c hc => hc

theorem splitFragment_fst_subset (url : List Char) :
    ∀ c ∈ (splitFragment url).1, c ∈ url := by
  rcases hr : splitAtFirst (fun x => decide (x = '#')) url with ⟨p, suf⟩
  match suf with
  | [] =>
    simp only [splitFragment, hr]
    exact fun c hc => hc
  | x :: rest =>
    simp only [splitFragment, hr]
    intro c hc
    exact splitAtFirst_sublist_fst (fun x => decide (x = '#')) url c (by rw [hr]; exact hc)

theorem splitQuery_fst_subset (url : List Char) :
    ∀ c ∈ (splitQuery url).1, c ∈ url := by
  rcases hr : splitAtFirst (fun x => decide (x = '?')) url with ⟨p, suf⟩
  match suf with
  | [] =>
    simp only [splitQuery, hr]
    exact fun c hc => hc
  | x :: rest =>
    simp only [splitQuery, hr]
    intro c hc
    exact splitAtFirst_sublist_fst (fun x => decide (x = '?')) url c (by rw [hr]; exact hc)

theorem splitFragment_fst_no_hash (url : List Char) : '#' ∉ (splitFragment url).1 := by
  rcases hr : splitAtFirst (fun x => decide (x = '#')) url with ⟨p, suf⟩
  match suf with
  | [] =>
    simp only [splitFragment, hr]
    intro hmem
    exact splitAtFirst_snd_ne_nil (fun x => decide (x = '#')) url '#' hmem (by simp)
      (by rw [hr])
  | x :: rest =>
    simp only [splitFragment, hr]
    intro hmem
    have := splitAtFirst_fst_not (fun x => decide (x = '#')) url '#' (by rw [hr]; exact hmem)
    simp at this

theorem splitQuery_fst_no_query (url : List Char) : '?' ∉ (splitQuery url).1 := by
  rcases hr : splitAtFirst (fun x => decide (x = '?')) url with ⟨p, suf⟩
  match suf with
  | [] =>
    simp only [splitQuery, hr]
    intro hmem
    exact splitAtFirst_snd_ne_nil (fun x => decide (x = '?')) url '?' hmem (by simp)
      (by rw [hr])
  | x :: rest =>
    simp only [splitQuery, hr]
    intro hmem
    have := splitAtFirst_fst_not (fun x => decide (x = '?')) url '?' (by rw [hr]; exact hmem)
    simp at this

theorem splitparams_fst_subset (l : List Char) : ∀ c ∈ (splitparams l).1, c ∈ l := by
  rcases hsplit : splitAtLast '/' l with _ | ⟨a, b⟩
  · rcases hsp : splitAtFirst (fun x => decide (x = ';')) l with ⟨p, suf⟩
    match suf with
    | [] =>
      simp only [splitparams, hsplit, hsp]
      exact fun c hc => hc
    | x :: rest =>
      simp only [splitparams, hsplit, hsp]
      intro c hc
      exact splitAtFirst_sublist_fst (fun x => decide (x = ';')) l c (by rw [hsp]; exact hc)
  · obtain ⟨hl, _⟩ := splitAtLast_eq_some hsplit
    rcases hsp : splitAtFirst (fun x => decide (x = ';')) b with ⟨bp, suf⟩
    match suf with
    | [] =>
      simp only [splitparams, hsplit, hsp]
      exact fun c hc => hc
    | x :: rest =>
      simp only [splitparams, hsplit, hsp]
      intro c hc
      rw [hl]
      rcases List.mem_append.mp hc with h | h
      · simp [h]
      · rcases List.mem_cons.mp h with rfl | h
        · simp
        · have := splitAtFirst_sublist_fst (fun x => decide (x = ';')) b c
            (by rw [hsp]; exact h)
          simp [this]

theorem urlsplitL_scheme_eq (d url : List Char) :
    (urlsplitL d url).scheme =
      (splitScheme (d.filter (fun c => !unsafeUrlByte c))
        (url.filter (fun c => !unsafeUrlByte c))).1 := rfl

theorem urlsplitL_netloc_eq (d url : List Char) :
    (urlsplitL d url).netloc =
      (splitNetloc (splitScheme (d.filter (fun c => !unsafeUrlByte c))
        (url.filter (fun c => !unsafeUrlByte c))).2).1 := rfl

theorem urlsplitL_path_eq (d url : List Char) :
    (urlsplitL d url).path =
      (splitQuery (splitFragment
        (splitNetloc (splitScheme (d.filter (fun c => !unsafeUrlByte c))
          (url.filter (fun c => !unsafeUrlByte c))).2).2).1).1 := rfl

theorem urlsplitL_scheme_cases (url : List Char) :
    (urlsplitL [] url).scheme = [] ∨
    ∃ s, isValidScheme s = true ∧ cleanChars s ∧
      (urlsplitL [] url).scheme = s.map Char.toLower := by
  rw [urlsplitL_scheme_eq]
  rcases splitScheme_cases (List.filter (fun c => !unsafeUrlByte c) [])
      (url.filter (fun c => !unsafeUrlByte c)) with h | ⟨s, r, hurl, hvalid, h⟩
  · left
    rw [h]
    rfl
  · right
    refine ⟨s, hvalid, ?_, by rw [h]⟩
    apply cleanChars_subset (b := url.filter (fun c => !unsafeUrlByte c))
    · intro c hc
      rw [hurl]
      simp [hc]
    · exact cleanChars_filter url

theorem urlsplitL_netloc_no_delim (d url : List Char) :
    ∀ c ∈ (urlsplitL d url).netloc, netlocDelim c = false := by
  rw [urlsplitL_netloc_eq]
  set mid := (splitScheme (d.filter (fun c => !unsafeUrlByte c))
    (url.filter (fun c => !unsafeUrlByte c))).2
  unfold splitNetloc
  split
  · exact splitAtFirst_fst_not netlocDelim (mid.drop 2)
  · simp

theorem urlsplitL_path_no_qf (d url : List Char) :
    '#' ∉ (urlsplitL d url).path ∧ '?' ∉ (urlsplitL d url).path := by
  rw [urlsplitL_path_eq]
  constructor
  · intro hmem
    exact splitFragment_fst_no_hash _ (splitQuery_fst_subset _ '#' hmem)
  · exact splitQuery_fst_no_query _

theorem urlsplitL_netloc_subset (d url : List Char) :
    ∀ c ∈ (urlsplitL d url).netloc, c ∈ url := by
  rw [urlsplitL_netloc_eq]
  intro c hc
  have h1 := splitNetloc_fst_subset _ c hc
  have h2 := splitScheme_snd_subset _ _ c h1
  have := List.mem_of_mem_filter h2
  exact this

theorem urlsplitL_path_subset (d url : List Char) :
    ∀ c ∈ (urlsplitL d url).path, c ∈ url := by
  rw [urlsplitL_path_eq]
  intro c hc
  have h1 := splitQuery_fst_subset _ c hc
  have h2 := splitFragment_fst_subset _ c h1
  have h3 := splitNetloc_snd_subset _ c h2
  have h4 := splitScheme_snd_subset _ _ c h3
  exact List.mem_of_mem_filter h4

theorem urlparseL_scheme (d url : List Char) :
    (urlparseL d url).scheme = (urlsplitL d url).scheme := by
  by_cases hc : (urlsplitL d url).scheme ∈ usesParams ∧ ';' ∈ (urlsplitL d url).path
  · simp only [urlparseL, if_pos hc]
  · simp only [urlparseL, if_neg hc]

theorem urlparseL_netloc (d url : List Char) :
    (urlparseL d url).netloc = (urlsplitL d url).netloc := by
  by_cases hc : (urlsplitL d url).scheme ∈ usesParams ∧ ';' ∈ (urlsplitL d url).path
  · simp only [urlparseL, if_pos hc]
  · simp only [urlparseL, if_neg hc]

theorem urlparseL_path_subset_split (d url : List Char) :
    ∀ c ∈ (urlparseL d url).path, c ∈ (urlsplitL d url).path := by
  by_cases hc : (urlsplitL d url).scheme ∈ usesParams ∧ ';' ∈ (urlsplitL d url).path
  · simp only [urlparseL, if_pos hc]
    exact fun c hcm => splitparams_fst_subset _ c hcm
  · simp only [urlparseL, if_neg hc]
    exact fun c hcm => hcm

theorem urlparseL_path_paramFree (d url : List Char)
    (h : (urlparseL d url).scheme ∈ usesParams) : paramFree (urlparseL d url).path := by
  rw [urlparseL_scheme] at h
  by_cases hc : (urlsplitL d url).scheme ∈ usesParams ∧ ';' ∈ (urlsplitL d url).path
  · simp only [urlparseL, if_pos hc]
    exact splitparams_fst_paramFree _
  · simp only [urlparseL, if_neg hc]
    rw [not_and_or] at hc
    rcases hc with hc | hc
    · exact absurd h hc
    · exact paramFree_of_no_semi hc

theorem cleanChars_map_toLower {s : List Char} (h : cleanChars s) :
    cleanChars (s.map Char.toLower) := by
  intro c hc
  rcases List.mem_map.mp hc with ⟨a, ha, rfl⟩
  rw [unsafeUrlByte_toLower]
  exact h a ha

theorem urlsplitL_netloc_clean (d url : List Char) :
    cleanChars (urlsplitL d url).netloc := by
  apply cleanChars_subset (b := url.filter (fun c => !unsafeUrlByte c))
  · rw [urlsplitL_netloc_eq]
    intro c hc
    exact splitScheme_snd_subset _ _ c (splitNetloc_fst_subset _ c hc)
  · exact cleanChars_filter url

theorem urlsplitL_path_clean (d url : List Char) :
    cleanChars (urlsplitL d url).path := by
  apply cleanChars_subset (b := url.filter (fun c => !unsafeUrlByte c))
  · rw [urlsplitL_path_eq]
    intro c hc
    exact splitScheme_snd_subset _ _ c (splitNetloc_snd_subset _ c
      (splitFragment_fst_subset _ c (splitQuery_fst_subset _ c hc)))
  · exact cleanChars_filter url

theorem urlsplitL_scheme_clean (d url : List Char) (hd : cleanChars d) :
    cleanChars (urlsplitL d url).scheme := by
  rw [urlsplitL_scheme_eq]
  rcases splitScheme_cases (d.filter (fun c => !unsafeUrlByte c))
      (url.filter (fun c => !unsafeUrlByte c)) with h | ⟨s, r, hurl, _, h⟩
  · rw [h]
    exact cleanChars_filter d
  · rw [h]
    apply cleanChars_map_toLower
    apply cleanChars_subset (b := url.filter (fun c => !unsafeUrlByte c))
    · intro c hc
      rw [hurl]
      simp [hc]
    · exact cleanChars_filter url

theorem netlocDelim_eq_slash {c : Char} (h1 : c ≠ '#') (h2 : c ≠ '?') :
    netlocDelim c = decide (c = '/') := by
  unfold netlocDelim
  rw [decide_eq_false h2, decide_eq_false h1]
  simp

theorem paramFree_netloc_snd {P : List Char} (hPf : '#' ∉ P) (hPq : '?' ∉ P)
    (hp : paramFree P) : paramFree ((splitAtFirst netlocDelim P).2) := by
  have hcongr : splitAtFirst netlocDelim P = splitAtFirst (fun c => decide (c = '/')) P :=
    splitAtFirst_congr (fun c hc =>
      netlocDelim_eq_slash (fun he => hPf (he ▸ hc)) (fun he => hPq (he ▸ hc)))
  rw [hcongr]
  rcases hsp : splitAtFirst (fun c => decide (c = '/')) P with ⟨pre, suf⟩
  match suf with
  | [] =>
    apply paramFree_of_no_semi
    simp
  | x :: rest =>
    have hx : x = '/' := by
      have := splitAtFirst_snd_head (fun c => decide (c = '/')) P x rest (by rw [hsp])
      simpa using this
    subst hx
    have hP : pre ++ '/' :: rest = P := by
      have := splitAtFirst_append_eq (fun c => decide (c = '/')) P
      rw [hsp] at this
      exact this
    have hpre : '/' ∉ pre := by
      intro hmem
      have h2 := splitAtFirst_fst_not (fun c => decide (c = '/')) P
      rw [hsp] at h2
      have := h2 '/' hmem
      simp at this
    obtain ⟨aR, bR, hR⟩ := splitAtLast_isSome_of_mem
      (show '/' ∈ ('/' :: rest) by simp)
    have hPlast : splitAtLast '/' P = some (pre ++ aR, bR) := by
      rw [← hP]
      exact splitAtLast_append_left hpre hR
    unfold paramFree at hp ⊢
    rw [hPlast] at hp
    rw [hR]
    exact hp

/-- Re-splitting a normalized absolute URL: for a lowered valid scheme `S`, a
delimiter-free netloc `N` and a fragment/query-free path `P`, all clean,
`urlsplit` recovers the same scheme and redistributes `N ++ P` at the first
path delimiter. -/
theorem urlsplitL_of_normalized (S N P : List Char)
    (hval : isValidScheme S = true) (hlow : S.map Char.toLower = S)
    (hSclean : cleanChars S) (hNclean : cleanChars N) (hPclean : cleanChars P)
    (hN : ∀ c ∈ N, netlocDelim c = false)
    (hPf : '#' ∉ P) (hPq : '?' ∉ P) :
    urlsplitL [] (S ++ ':' :: '/' :: '/' :: (N ++ P)) =
      { scheme := S,
        netloc := N ++ (splitAtFirst netlocDelim P).1,
        path := (splitAtFirst netlocDelim P).2,
        params := [], query := [], fragment := [] } := by
  have hclean : cleanChars (S ++ ':' :: '/' :: '/' :: (N ++ P)) := by
    apply cleanChars_append hSclean
    intro c hc
    rcases List.mem_cons.mp hc with rfl | hc
    · decide
    rcases List.mem_cons.mp hc with rfl | hc
    · decide
    rcases List.mem_cons.mp hc with rfl | hc
    · decide
    exact cleanChars_append hNclean hPclean c hc
  have h2 : splitScheme [] (S ++ ':' :: '/' :: '/' :: (N ++ P)) =
      (S, '/' :: '/' :: (N ++ P)) := by
    rw [splitScheme_valid hval, hlow]
  have hnp : splitAtFirst netlocDelim (N ++ P) =
      (N ++ (splitAtFirst netlocDelim P).1, (splitAtFirst netlocDelim P).2) :=
    splitAtFirst_append_of_forall_neg _ _ _ hN
  have h3 : splitNetloc ('/' :: '/' :: (N ++ P)) =
      (N ++ (splitAtFirst netlocDelim P).1, (splitAtFirst netlocDelim P).2) := by
    rw [splitNetloc_slash2, hnp]
  have hRsub : ∀ c ∈ (splitAtFirst netlocDelim P).2, c ∈ P :=
    splitAtFirst_sublist_snd netlocDelim P
  have h4 : splitFragment ((splitAtFirst netlocDelim P).2) =
      ((splitAtFirst netlocDelim P).2, []) :=
    splitFragment_of_no _ (fun hmem => hPf (hRsub _ hmem))
  have h5 : splitQuery ((splitAtFirst netlocDelim P).2) =
      ((splitAtFirst netlocDelim P).2, []) :=
    splitQuery_of_no _ (fun hmem => hPq (hRsub _ hmem))
  simp only [urlsplitL, List.filter_nil, filter_unsafe_eq_self hclean, h2, h3, h4, h5]

/-- `urlparse` on a normalized absolute URL: same scheme, and the netloc/path pair
concatenates back to `N ++ P`. -/
theorem urlparseL_of_normalized (S N P : List Char)
    (hval : isValidScheme S = true) (hlow : S.map Char.toLower = S)
    (hSclean : cleanChars S) (hNclean : cleanChars N) (hPclean : cleanChars P)
    (hN : ∀ c ∈ N, netlocDelim c = false)
    (hPf : '#' ∉ P) (hPq : '?' ∉ P)
    (hparam : S ∈ usesParams → paramFree P) :
    (urlparseL [] (S ++ ':' :: '/' :: '/' :: (N ++ P))).scheme = S ∧
    (urlparseL [] (S ++ ':' :: '/' :: '/' :: (N ++ P))).netloc ++
      (urlparseL [] (S ++ ':' :: '/' :: '/' :: (N ++ P))).path = N ++ P := by
  have hsplit := urlsplitL_of_normalized S N P hval hlow hSclean hNclean hPclean hN hPf hPq
  have happ : (splitAtFirst netlocDelim P).1 ++ (splitAtFirst netlocDelim P).2 = P :=
    splitAtFirst_append_eq netlocDelim P
  by_cases hc : S ∈ usesParams ∧ ';' ∈ (splitAtFirst netlocDelim P).2
  · have hpf : paramFree ((splitAtFirst netlocDelim P).2) :=
      paramFree_netloc_snd hPf hPq (hparam hc.1)
    have hsp : splitparams ((splitAtFirst netlocDelim P).2) =
        ((splitAtFirst netlocDelim P).2, []) := splitparams_of_paramFree hpf
    constructor
    · rw [urlparseL_scheme, hsplit]
    · unfold urlparseL
      rw [hsplit]
      simp only [if_pos hc, hsp]
      rw [List.append_assoc, happ]
  · constructor
    · rw [urlparseL_scheme, hsplit]
    · unfold urlparseL
      rw [hsplit]
      simp only [if_neg hc]
      rw [List.append_assoc, happ]

/-- The data of a parse with nonempty scheme, packaged. -/
theorem urlparse_components (url : List Char)
    (h : (urlparseL [] url).scheme ≠ []) :
    isValidScheme (urlparseL [] url).scheme = true ∧
    ((urlparseL [] url).scheme).map Char.toLower = (urlparseL [] url).scheme ∧
    cleanChars (urlparseL [] url).scheme ∧
    cleanChars (urlparseL [] url).netloc ∧
    cleanChars (urlparseL [] url).path ∧
    (∀ c ∈ (urlparseL [] url).netloc, netlocDelim c = false) ∧
    '#' ∉ (urlparseL [] url).path ∧ '?' ∉ (urlparseL [] url).path ∧
    ((urlparseL [] url).scheme ∈ usesParams → paramFree (urlparseL [] url).path) := by
  have hs := urlparseL_scheme [] url
  obtain hS | ⟨s, hsval, hsclean, hSeq⟩ := urlsplitL_scheme_cases url
  · rw [← hs] at hS
    exact absurd hS h
  · have hq := urlsplitL_path_no_qf [] url
    refine ⟨?_, ?_, ?_, ?_, ?_, ?_, ?_, ?_, ?_⟩
    · rw [hs, hSeq]
      exact isValidScheme_toLower hsval
    · rw [hs, hSeq]
      exact map_toLower_idem s
    · rw [hs, hSeq]
      exact cleanChars_map_toLower hsclean
    · rw [urlparseL_netloc]
      exact urlsplitL_netloc_clean [] url
    · exact cleanChars_subset (urlparseL_path_subset_split [] url)
        (urlsplitL_path_clean [] url)
    · rw [urlparseL_netloc]
      exact urlsplitL_netloc_no_delim [] url
    · intro hmem
      exact hq.1 (urlparseL_path_subset_split [] url _ hmem)
    · intro hmem
      exact hq.2 (urlparseL_path_subset_split [] url _ hmem)
    · exact urlparseL_path_paramFree [] url

/-- Re-parsing the normalized form of a URL with a scheme preserves scheme and the
netloc/path concatenation. -/
theorem urlparse_normalizeL_of_scheme (url : List Char)
    (h : (urlparseL [] url).scheme ≠ []) :
    (urlparseL [] (normalizeL url)).scheme = (urlparseL [] url).scheme ∧
    (urlparseL [] (normalizeL url)).netloc ++ (urlparseL [] (normalizeL url)).path =
      (urlparseL [] url).netloc ++ (urlparseL [] url).path := by
  obtain ⟨hval, hlow, hSc, hNc, hPc, hN, hPf, hPq, hparam⟩ := urlparse_components url h
  have := urlparseL_of_normalized (urlparseL [] url).scheme (urlparseL [] url).netloc
    (urlparseL [] url).path hval hlow hSc hNc hPc hN hPf hPq hparam
  exact this

/-- `normalize_url` is idempotent on every URL whose parse carries a scheme. -/
theorem normalizeL_idem_of_scheme (url : List Char)
    (h : (urlparseL [] url).scheme ≠ []) :
    normalizeL (normalizeL url) = normalizeL url := by
  obtain ⟨h1, h2⟩ := urlparse_normalizeL_of_scheme url h
  show (urlparseL [] (normalizeL url)).scheme ++ ':' :: '/' :: '/' ::
      ((urlparseL [] (normalizeL url)).netloc ++ (urlparseL [] (normalizeL url)).path) =
    (urlparseL [] url).scheme ++ ':' :: '/' :: '/' ::
      ((urlparseL [] url).netloc ++ (urlparseL [] url).path)
  rw [h1, h2]

/-- Re-parsing a normalized URL yields the same scheme, also in the schemeless case. -/
theorem urlparse_normalizeL_scheme (url : List Char) :
    (urlparseL [] (normalizeL url)).scheme = (urlparseL [] url).scheme := by
  by_cases h : (urlparseL [] url).scheme = []
  · rw [h]
    -- normalizeL url = ':' :: '/' :: '/' :: (N ++ P); its first char is ':'
    have hNc : cleanChars (urlparseL [] url).netloc := by
      rw [urlparseL_netloc]
      exact urlsplitL_netloc_clean [] url
    have hPc : cleanChars (urlparseL [] url).path :=
      cleanChars_subset (urlparseL_path_subset_split [] url) (urlsplitL_path_clean [] url)
    have hclean : cleanChars (':' :: '/' :: '/' ::
        ((urlparseL [] url).netloc ++ (urlparseL [] url).path)) := by
      intro c hc
      rcases List.mem_cons.mp hc with rfl | hc
      · decide
      rcases List.mem_cons.mp hc with rfl | hc
      · decide
      rcases List.mem_cons.mp hc with rfl | hc
      · decide
      exact cleanChars_append hNc hPc c hc
    have hn : normalizeL url = ':' :: '/' :: '/' ::
        ((urlparseL [] url).netloc ++ (urlparseL [] url).path) := by
      show (urlparseL [] url).scheme ++ _ = _
      rw [h]
      rfl
    have hzs : splitScheme []
        (':' :: '/' :: '/' :: ((urlparseL [] url).netloc ++ (urlparseL [] url).path)) =
        ([], ':' :: '/' :: '/' :: ((urlparseL [] url).netloc ++ (urlparseL [] url).path)) := by
      simp only [splitScheme,
        splitAtFirst_cons_pos (fun x => decide (x = ':')) ':' _ (by simp)]
    rw [urlparseL_scheme, urlsplitL_scheme_eq, hn, List.filter_nil,
      filter_unsafe_eq_self hclean, hzs]
  · exact (urlparse_normalizeL_of_scheme url h).1

/-! ### Insensitivity of the parsed scheme/netloc/path to appended query/fragment -/

theorem urlsplitL_append_query (u q : List Char) (hf : '#' ∉ u) (hq : '?' ∉ u)
    (hqf : '#' ∉ q) :
    (urlsplitL [] (u ++ '?' :: q)).scheme = (urlsplitL [] u).scheme ∧
    (urlsplitL [] (u ++ '?' :: q)).netloc = (urlsplitL [] u).netloc ∧
    (urlsplitL [] (u ++ '?' :: q)).path = (urlsplitL [] u).path := by
  have hfilter : (u ++ '?' :: q).filter (fun c => !unsafeUrlByte c) =
      u.filter (fun c => !unsafeUrlByte c) ++ '?' :: q.filter (fun c => !unsafeUrlByte c) := by
    rw [List.filter_append, List.filter_cons_of_pos (by decide)]
  have hfu : '#' ∉ u.filter (fun c => !unsafeUrlByte c) := fun hm =>
    hf (List.mem_of_mem_filter hm)
  have hqu : '?' ∉ u.filter (fun c => !unsafeUrlByte c) := fun hm =>
    hq (List.mem_of_mem_filter hm)
  have hfq : '#' ∉ q.filter (fun c => !unsafeUrlByte c) := fun hm =>
    hqf (List.mem_of_mem_filter hm)
  have h1 := splitScheme_append_sep [] (u.filter (fun c => !unsafeUrlByte c))
    (q.filter (fun c => !unsafeUrlByte c)) '?' (by decide) (by decide) (by decide)
  have hRsub := splitScheme_snd_subset ([] : List Char) (u.filter (fun c => !unsafeUrlByte c))
  have h2 := splitNetloc_append_sep
    ((splitScheme [] (u.filter (fun c => !unsafeUrlByte c))).2)
    (q.filter (fun c => !unsafeUrlByte c)) '?' (by decide) (by decide)
  have hR2sub := splitNetloc_snd_subset
    ((splitScheme [] (u.filter (fun c => !unsafeUrlByte c))).2)
  have hfR2 : '#' ∉ (splitNetloc ((splitScheme [] (u.filter (fun c => !unsafeUrlByte c))).2)).2 :=
    fun hm => hfu (hRsub _ (hR2sub _ hm))
  have hqR2 : '?' ∉ (splitNetloc ((splitScheme [] (u.filter (fun c => !unsafeUrlByte c))).2)).2 :=
    fun hm => hqu (hRsub _ (hR2sub _ hm))
  have h3 : splitFragment
      ((splitNetloc ((splitScheme [] (u.filter (fun c => !unsafeUrlByte c))).2)).2 ++
        '?' :: q.filter (fun c => !unsafeUrlByte c)) =
      ((splitNetloc ((splitScheme [] (u.filter (fun c => !unsafeUrlByte c))).2)).2 ++
        '?' :: q.filter (fun c => !unsafeUrlByte c), []) := by
    apply splitFragment_of_no
    intro hm
    rcases List.mem_append.mp hm with hm | hm
    · exact hfR2 hm
    · rcases List.mem_cons.mp hm with hm | hm
      · exact absurd hm (by decide)
      · exact hfq hm
  have h3u : splitFragment
      ((splitNetloc ((splitScheme [] (u.filter (fun c => !unsafeUrlByte c))).2)).2) =
      ((splitNetloc ((splitScheme [] (u.filter (fun c => !unsafeUrlByte c))).2)).2, []) :=
    splitFragment_of_no _ hfR2
  have h4 : splitQuery
      ((splitNetloc ((splitScheme [] (u.filter (fun c => !unsafeUrlByte c))).2)).2 ++
        '?' :: q.filter (fun c => !unsafeUrlByte c)) =
      ((splitNetloc ((splitScheme [] (u.filter (fun c => !unsafeUrlByte c))).2)).2,
        q.filter (fun c => !unsafeUrlByte c)) :=
    splitQuery_append _ _ hqR2
  have h4u : splitQuery
      ((splitNetloc ((splitScheme [] (u.filter (fun c => !unsafeUrlByte c))).2)).2) =
      ((splitNetloc ((splitScheme [] (u.filter (fun c => !unsafeUrlByte c))).2)).2, []) :=
    splitQuery_of_no _ hqR2
  refine ⟨?_, ?_, ?_⟩ <;>
    simp only [urlsplitL, hfilter, List.filter_nil, h1, h2, h3, h3u, h4, h4u]

theorem urlsplitL_append_fragment (u f : List Char) (hf : '#' ∉ u) (hq : '?' ∉ u) :
    (urlsplitL [] (u ++ '#' :: f)).scheme = (urlsplitL [] u).scheme ∧
    (urlsplitL [] (u ++ '#' :: f)).netloc = (urlsplitL [] u).netloc ∧
    (urlsplitL [] (u ++ '#' :: f)).path = (urlsplitL [] u).path := by
  have hfilter : (u ++ '#' :: f).filter (fun c => !unsafeUrlByte c) =
      u.filter (fun c => !unsafeUrlByte c) ++ '#' :: f.filter (fun c => !unsafeUrlByte c) := by
    rw [List.filter_append, List.filter_cons_of_pos (by decide)]
  have hfu : '#' ∉ u.filter (fun c => !unsafeUrlByte c) := fun hm =>
    hf (List.mem_of_mem_filter hm)
  have hqu : '?' ∉ u.filter (fun c => !unsafeUrlByte c) := fun hm =>
    hq (List.mem_of_mem_filter hm)
  have h1 := splitScheme_append_sep [] (u.filter (fun c => !unsafeUrlByte c))
    (f.filter (fun c => !unsafeUrlByte c)) '#' (by decide) (by decide) (by decide)
  have hRsub := splitScheme_snd_subset ([] : List Char) (u.filter (fun c => !unsafeUrlByte c))
  have h2 := splitNetloc_append_sep
    ((splitScheme [] (u.filter (fun c => !unsafeUrlByte c))).2)
    (f.filter (fun c => !unsafeUrlByte c)) '#' (by decide) (by decide)
  have hR2sub := splitNetloc_snd_subset
    ((splitScheme [] (u.filter (fun c => !unsafeUrlByte c))).2)
  have hfR2 : '#' ∉ (splitNetloc ((splitScheme [] (u.filter (fun c => !unsafeUrlByte c))).2)).2 :=
    fun hm => hfu (hRsub _ (hR2sub _ hm))
  have hqR2 : '?' ∉ (splitNetloc ((splitScheme [] (u.filter (fun c => !unsafeUrlByte c))).2)).2 :=
    fun hm => hqu (hRsub _ (hR2sub _ hm))
  have h3 : splitFragment
      ((splitNetloc ((splitScheme [] (u.filter (fun c => !unsafeUrlByte c))).2)).2 ++
        '#' :: f.filter (fun c => !unsafeUrlByte c)) =
      ((splitNetloc ((splitScheme [] (u.filter (fun c => !unsafeUrlByte c))).2)).2,
        f.filter (fun c => !unsafeUrlByte c)) :=
    splitFragment_append _ _ hfR2
  have h3u : splitFragment
      ((splitNetloc ((splitScheme [] (u.filter (fun c => !unsafeUrlByte c))).2)).2) =
      ((splitNetloc ((splitScheme [] (u.filter (fun c => !unsafeUrlByte c))).2)).2, []) :=
    splitFragment_of_no _ hfR2
  have h4u : splitQuery
      ((splitNetloc ((splitScheme [] (u.filter (fun c => !unsafeUrlByte c))).2)).2) =
      ((splitNetloc ((splitScheme [] (u.filter (fun c => !unsafeUrlByte c))).2)).2, []) :=
    splitQuery_of_no _ hqR2
  refine ⟨?_, ?_, ?_⟩ <;>
    simp only [urlsplitL, hfilter, List.filter_nil, h1, h2, h3, h3u, h4u]

theorem urlparse_components_eq_of_split_eq (x y : List Char)
    (h1 : (urlsplitL [] x).scheme = (urlsplitL [] y).scheme)
    (h2 : (urlsplitL [] x).netloc = (urlsplitL [] y).netloc)
    (h3 : (urlsplitL [] x).path = (urlsplitL [] y).path) :
    (urlparseL [] x).scheme = (urlparseL [] y).scheme ∧
    (urlparseL [] x).netloc = (urlparseL [] y).netloc ∧
    (urlparseL [] x).path = (urlparseL [] y).path := by
  by_cases hc : (urlsplitL [] y).scheme ∈ usesParams ∧ ';' ∈ (urlsplitL [] y).path
  · have hcx : (urlsplitL [] x).scheme ∈ usesParams ∧ ';' ∈ (urlsplitL [] x).path := by
      rw [h1, h3]
      exact hc
    refine ⟨?_, ?_, ?_⟩ <;>
      simp only [urlparseL, if_pos hc, if_pos hcx, h1, h2, h3]
  · have hcx : ¬((urlsplitL [] x).scheme ∈ usesParams ∧ ';' ∈ (urlsplitL [] x).path) := by
      rw [h1, h3]
      exact hc
    refine ⟨?_, ?_, ?_⟩ <;>
      simp only [urlparseL, if_neg hc, if_neg hcx, h1, h2, h3]

theorem normalizeL_append_query (u q : List Char) (hf : '#' ∉ u) (hq : '?' ∉ u)
    (hqf : '#' ∉ q) : normalizeL (u ++ '?' :: q) = normalizeL u := by
  obtain ⟨e1, e2, e3⟩ := urlsplitL_append_query u q hf hq hqf
  obtain ⟨p1, p2, p3⟩ := urlparse_components_eq_of_split_eq _ _ e1 e2 e3
  show (urlparseL [] (u ++ '?' :: q)).scheme ++ ':' :: '/' :: '/' ::
      ((urlparseL [] (u ++ '?' :: q)).netloc ++ (urlparseL [] (u ++ '?' :: q)).path) = _
  rw [p1, p2, p3]
  rfl

theorem normalizeL_append_fragment (u f : List Char) (hf : '#' ∉ u) (hq : '?' ∉ u) :
    normalizeL (u ++ '#' :: f) = normalizeL u := by
  obtain ⟨e1, e2, e3⟩ := urlsplitL_append_fragment u f hf hq
  obtain ⟨p1, p2, p3⟩ := urlparse_components_eq_of_split_eq _ _ e1 e2 e3
  show (urlparseL [] (u ++ '#' :: f)).scheme ++ ':' :: '/' :: '/' ::
      ((urlparseL [] (u ++ '#' :: f)).netloc ++ (urlparseL [] (u ++ '#' :: f)).path) = _
  rw [p1, p2, p3]
  rfl

/-! ### Insensitivity to a combined query-and-fragment suffix -/

theorem urlsplitL_append_query_fragment (u q f : List Char) (hf : '#' ∉ u)
    (hq : '?' ∉ u) (hqf : '#' ∉ q) :
    (urlsplitL [] (u ++ '?' :: q ++ '#' :: f)).scheme = (urlsplitL [] u).scheme ∧
    (urlsplitL [] (u ++ '?' :: q ++ '#' :: f)).netloc = (urlsplitL [] u).netloc ∧
    (urlsplitL [] (u ++ '?' :: q ++ '#' :: f)).path = (urlsplitL [] u).path := by
  have hfilter : (u ++ '?' :: q ++ '#' :: f).filter (fun c => !unsafeUrlByte c) =
      u.filter (fun c => !unsafeUrlByte c) ++
        '?' :: (q.filter (fun c => !unsafeUrlByte c) ++
          '#' :: f.filter (fun c => !unsafeUrlByte c)) := by
    rw [List.filter_append, List.filter_cons_of_pos (by decide), List.filter_append,
      List.filter_cons_of_pos (by decide)]
    simp
  have hfu : '#' ∉ u.filter (fun c => !unsafeUrlByte c) := fun hm =>
    hf (List.mem_of_mem_filter hm)
  have hqu : '?' ∉ u.filter (fun c => !unsafeUrlByte c) := fun hm =>
    hq (List.mem_of_mem_filter hm)
  have hfq : '#' ∉ q.filter (fun c => !unsafeUrlByte c) := fun hm =>
    hqf (List.mem_of_mem_filter hm)
  have h1 := splitScheme_append_sep [] (u.filter (fun c => !unsafeUrlByte c))
    (q.filter (fun c => !unsafeUrlByte c) ++ '#' :: f.filter (fun c => !unsafeUrlByte c))
    '?' (by decide) (by decide) (by decide)
  have hRsub := splitScheme_snd_subset ([] : List Char)
    (u.filter (fun c => !unsafeUrlByte c))
  have h2 := splitNetloc_append_sep
    ((splitScheme [] (u.filter (fun c => !unsafeUrlByte c))).2)
    (q.filter (fun c => !unsafeUrlByte c) ++ '#' :: f.filter (fun c => !unsafeUrlByte c))
    '?' (by decide) (by decide)
  have hR2sub := splitNetloc_snd_subset
    ((splitScheme [] (u.filter (fun c => !unsafeUrlByte c))).2)
  have hfR2 : '#' ∉ (splitNetloc ((splitScheme [] (u.filter (fun c => !unsafeUrlByte c))).2)).2 :=
    fun hm => hfu (hRsub _ (hR2sub _ hm))
  have hqR2 : '?' ∉ (splitNetloc ((splitScheme [] (u.filter (fun c => !unsafeUrlByte c))).2)).2 :=
    fun hm => hqu (hRsub _ (hR2sub _ hm))
  have hpre : '#' ∉
      (splitNetloc ((splitScheme [] (u.filter (fun c => !unsafeUrlByte c))).2)).2 ++
        '?' :: q.filter (fun c => !unsafeUrlByte c) := by
    intro hm
    rcases List.mem_append.mp hm with hm | hm
    · exact hfR2 hm
    · rcases List.mem_cons.mp hm with hm | hm
      · exact absurd hm (by decide)
      · exact hfq hm
  have hshape :
      (splitNetloc ((splitScheme [] (u.filter (fun c => !unsafeUrlByte c))).2)).2 ++
        '?' :: (q.filter (fun c => !unsafeUrlByte c) ++
          '#' :: f.filter (fun c => !unsafeUrlByte c)) =
      ((splitNetloc ((splitScheme [] (u.filter (fun c => !unsafeUrlByte c))).2)).2 ++
        '?' :: q.filter (fun c => !unsafeUrlByte c)) ++
        '#' :: f.filter (fun c => !unsafeUrlByte c) := by
    simp
  have h3 : splitFragment
      ((splitNetloc ((splitScheme [] (u.filter (fun c => !unsafeUrlByte c))).2)).2 ++
        '?' :: (q.filter (fun c => !unsafeUrlByte c) ++
          '#' :: f.filter (fun c => !unsafeUrlByte c))) =
      ((splitNetloc ((splitScheme [] (u.filter (fun c => !unsafeUrlByte c))).2)).2 ++
        '?' :: q.filter (fun c => !unsafeUrlByte c),
        f.filter (fun c => !unsafeUrlByte c)) := by
    rw [hshape]
    exact splitFragment_append _ _ hpre
  have h3u : splitFragment
      ((splitNetloc ((splitScheme [] (u.filter (fun c => !unsafeUrlByte c))).2)).2) =
      ((splitNetloc ((splitScheme [] (u.filter (fun c => !unsafeUrlByte c))).2)).2, []) :=
    splitFragment_of_no _ hfR2
  have h4 : splitQuery
      ((splitNetloc ((splitScheme [] (u.filter (fun c => !unsafeUrlByte c))).2)).2 ++
        '?' :: q.filter (fun c => !unsafeUrlByte c)) =
      ((splitNetloc ((splitScheme [] (u.filter (fun c => !unsafeUrlByte c))).2)).2,
        q.filter (fun c => !unsafeUrlByte c)) :=
    splitQuery_append _ _ hqR2
  have h4u : splitQuery
      ((splitNetloc ((splitScheme [] (u.filter (fun c => !unsafeUrlByte c))).2)).2) =
      ((splitNetloc ((splitScheme [] (u.filter (fun c => !unsafeUrlByte c))).2)).2, []) :=
    splitQuery_of_no _ hqR2
  refine ⟨?_, ?_, ?_⟩ <;>
    simp only [urlsplitL, hfilter, List.filter_nil, h1, h2, h3, h3u, h4, h4u]

theorem normalizeL_append_query_fragment (u q f : List Char) (hf : '#' ∉ u)
    (hq : '?' ∉ u) (hqf : '#' ∉ q) :
    normalizeL (u ++ '?' :: q ++ '#' :: f) = normalizeL u := by
  obtain ⟨e1, e2, e3⟩ := urlsplitL_append_query_fragment u q f hf hq hqf
  obtain ⟨p1, p2, p3⟩ := urlparse_components_eq_of_split_eq _ _ e1 e2 e3
  show (urlparseL [] (u ++ '?' :: q ++ '#' :: f)).scheme ++ ':' :: '/' :: '/' ::
      ((urlparseL [] (u ++ '?' :: q ++ '#' :: f)).netloc ++
        (urlparseL [] (u ++ '?' :: q ++ '#' :: f)).path) = _
  rw [p1, p2, p3]
  rfl

/-! ### The normalized form never contains a query or fragment marker -/

theorem isValidScheme_no_qf {s : List Char} (h : isValidScheme s = true) :
    '#' ∉ s ∧ '?' ∉ s := by
  match s with
  | [] => simp
  | c0 :: ctl =>
    simp only [isValidScheme, Bool.and_eq_true, List.all_eq_true] at h
    constructor
    · intro hm
      rcases List.mem_cons.mp hm with he | hm
      · rw [← he] at h
        have := h.1
        simp [char_isAlpha_iff] at this
      · have := h.2 '#' hm
        simp [schemeChar_iff] at this
    · intro hm
      rcases List.mem_cons.mp hm with he | hm
      · rw [← he] at h
        have := h.1
        simp [char_isAlpha_iff] at this
      · have := h.2 '?' hm
        simp [schemeChar_iff] at this

theorem normalizeL_no_qf (url : List Char) :
    '#' ∉ normalizeL url ∧ '?' ∉ normalizeL url := by
  have hs : '#' ∉ (urlparseL [] url).scheme ∧ '?' ∉ (urlparseL [] url).scheme := by
    rw [urlparseL_scheme]
    obtain hS | ⟨s, hsval, _, hSeq⟩ := urlsplitL_scheme_cases url
    · rw [hS]
      simp
    · rw [hSeq]
      exact isValidScheme_no_qf (isValidScheme_toLower hsval)
  have hn : '#' ∉ (urlparseL [] url).netloc ∧ '?' ∉ (urlparseL [] url).netloc := by
    rw [urlparseL_netloc]
    constructor <;> intro hm <;>
      have := urlsplitL_netloc_no_delim [] url _ hm <;> simp [netlocDelim] at this
  have hq := urlsplitL_path_no_qf [] url
  have hp : '#' ∉ (urlparseL [] url).path ∧ '?' ∉ (urlparseL [] url).path :=
    ⟨fun hm => hq.1 (urlparseL_path_subset_split [] url _ hm),
     fun hm => hq.2 (urlparseL_path_subset_split [] url _ hm)⟩
  have hshow : normalizeL url = (urlparseL [] url).scheme ++ ':' :: '/' :: '/' ::
      ((urlparseL [] url).netloc ++ (urlparseL [] url).path) := rfl
  rw [hshow]
  constructor <;> intro hm
  · rcases List.mem_append.mp hm with hm | hm
    · exact hs.1 hm
    rcases List.mem_cons.mp hm with he | hm
    · exact absurd he (by decide)
    rcases List.mem_cons.mp hm with he | hm
    · exact absurd he (by decide)
    rcases List.mem_cons.mp hm with he | hm
    · exact absurd he (by decide)
    rcases List.mem_append.mp hm with hm | hm
    · exact hn.1 hm
    · exact hp.1 hm
  · rcases List.mem_append.mp hm with hm | hm
    · exact hs.2 hm
    rcases List.mem_cons.mp hm with he | hm
    · exact absurd he (by decide)
    rcases List.mem_cons.mp hm with he | hm
    · exact absurd he (by decide)
    rcases List.mem_cons.mp hm with he | hm
    · exact absurd he (by decide)
    rcases List.mem_append.mp hm with hm | hm
    · exact hn.2 hm
    · exact hp.2 hm

/-! ### Lemmas about the crawl loop -/

theorem buildPage_shape {world : World} {url html : String} {page : PageRecord}
    {mdF : Option String} (h : buildPage world url html = .ok (page, mdF)) :
    page.html_url = url ∧
    page.title = pyOrStr (extract_title_from_html world.soupTitle html) url ∧
    page.md_url = check_for_md_version world.probe200 url := by
  simp only [buildPage] at h
  repeat' split at h
  all_goals simp only [Except.ok.injEq, Prod.mk.injEq, reduceCtorEq] at h
  all_goals obtain ⟨h1, h2⟩ := h
  all_goals subst h1
  all_goals refine ⟨rfl, rfl, ?_⟩
  all_goals simp_all

theorem buildPage_isOk {world : World} {url html : String}
    (hext : ∃ t, world.extractText html = .ok t) :
    ∃ pr, buildPage world url html = .ok pr := by
  obtain ⟨t, ht⟩ := hext
  simp only [buildPage]
  repeat' split
  all_goals first
    | exact ⟨_, rfl⟩
    | simp_all

theorem extract_title_of_soup_error {world : World} {html : String}
    (hT : world.soupTitle html = .error ()) :
    extract_title_from_html world.soupTitle html = none := by
  unfold extract_title_from_html
  by_cases hh : html = ""
  · rw [if_pos hh]
  · rw [if_neg hh, hT]

/-- The four possible outcomes of one loop iteration. -/
theorem crawl_step_spec (cfg : Config) (world : World) (s : CrawlState) (url : String)
    (rest : List String) :
    ((url ∈ s.visited_urls ∨ world.allowed url = false) ∧
      crawl_step cfg world s url rest = .ok { s with queue := rest }) ∨
    (url ∉ s.visited_urls ∧ world.allowed url = true ∧
      (world.fetchOutcome url = none ∨ world.fetchOutcome url = some "") ∧
      crawl_step cfg world s url rest =
        .ok { s with
                queue := rest,
                visited_urls := s.visited_urls ++ [url],
                fetchLog := s.fetchLog ++ [url] }) ∨
    (∃ html page mdF, url ∉ s.visited_urls ∧ world.allowed url = true ∧
      world.fetchOutcome url = some html ∧ html ≠ "" ∧
      buildPage world url html = .ok (page, mdF) ∧
      crawl_step cfg world s url rest =
        .ok { visited_urls := s.visited_urls ++ [url],
              queue := enqueue_links cfg.MAX_PAGES (s.visited_urls ++ [url]) rest
                (extract_links cfg (s.visited_urls ++ [url]) (world.hrefs html) url),
              pages := s.pages ++ [page],
              processed := s.processed + 1,
              fetchLog := (s.fetchLog ++ [url]) ++ (match mdF with
                                                    | some m => [m]
                                                    | none => []) }) ∨
    (∃ e, crawl_step cfg world s url rest = .error e) := by
  by_cases hv : url ∈ s.visited_urls
  · left
    exact ⟨Or.inl hv, by simp [crawl_step, hv]⟩
  · by_cases ha : world.allowed url = true
    · rcases hf : world.fetchOutcome url with _ | html
      · right; left
        exact ⟨hv, ha, Or.inl rfl, by simp [crawl_step, hv, ha, hf]⟩
      · by_cases hh : html = ""
        · right; left
          refine ⟨hv, ha, Or.inr (by rw [hh]), ?_⟩
          simp [crawl_step, hv, ha, hf, hh]
        · rcases hb : buildPage world url html with e | ⟨page, mdF⟩
          · right; right; right
            exact ⟨e, by simp [crawl_step, hv, ha, hf, hh, hb]⟩
          · right; right; left
            refine ⟨html, page, mdF, hv, ha, rfl, hh, hb, ?_⟩
            simp [crawl_step, hv, ha, hf, hh, hb]
    · left
      have ha' : world.allowed url = false := by simpa using ha
      exact ⟨Or.inr ha', by simp [crawl_step, hv, ha']⟩

/-! ### Enqueue lemmas -/

theorem enqueueStep_spec (M : Nat) (v q : List String) (l : String)
    (h : enqueueStep M v q l ≠ q) :
    2 * (v.length + q.length) < 3 * M ∧ enqueueStep M v q l = q ++ [l] := by
  unfold enqueueStep at h ⊢
  by_cases hc : l ∉ v ∧ l ∉ q ∧ 2 * (v.length + q.length) < 3 * M
  · rw [if_pos hc]
    exact ⟨hc.2.2, rfl⟩
  · rw [if_neg hc] at h
    exact absurd rfl h

theorem enqueueStep_of_full (M : Nat) (v q : List String) (l : String)
    (h : 3 * M ≤ 2 * (v.length + q.length)) : enqueueStep M v q l = q := by
  unfold enqueueStep
  rw [if_neg]
  intro hc
  omega

theorem enqueue_links_of_full (M : Nat) (v q : List String) (links : List String)
    (h : 3 * M ≤ 2 * (v.length + q.length)) : enqueue_links M v q links = q := by
  induction links with
  | nil => rfl
  | cons l ls ih =>
    unfold enqueue_links at ih ⊢
    rw [List.foldl_cons, enqueueStep_of_full M v q l h, ih]

theorem enqueueStep_len (M : Nat) (v q : List String) (l : String) :
    2 * (v.length + (enqueueStep M v q l).length) ≤
      max (2 * (v.length + q.length)) (3 * M + 1) := by
  unfold enqueueStep
  split
  · next hc =>
    simp only [List.length_append, List.length_cons, List.length_nil]
    omega
  · omega

theorem enqueue_links_len (M : Nat) (v : List String) (links : List String) :
    ∀ q, 2 * (v.length + (enqueue_links M v q links).length) ≤
      max (2 * (v.length + q.length)) (3 * M + 1) := by
  induction links with
  | nil =>
    intro q
    simp [enqueue_links]
  | cons l ls ih =>
    intro q
    unfold enqueue_links at ih ⊢
    rw [List.foldl_cons]
    have h1 := ih (enqueueStep M v q l)
    have h2 := enqueueStep_len M v q l
    omega

theorem enqueueStep_mem (M : Nat) (v q : List String) (l x : String)
    (h : x ∈ enqueueStep M v q l) : x ∈ q ∨ x = l := by
  unfold enqueueStep at h
  split at h
  · rcases List.mem_append.mp h with h | h
    · exact Or.inl h
    · exact Or.inr (by simpa using h)
  · exact Or.inl h

theorem enqueue_links_mem (M : Nat) (v : List String) (links : List String) :
    ∀ q x, x ∈ enqueue_links M v q links → x ∈ q ∨ x ∈ links := by
  induction links with
  | nil =>
    intro q x h
    exact Or.inl h
  | cons l ls ih =>
    intro q x h
    unfold enqueue_links at ih h
    rw [List.foldl_cons] at h
    rcases ih _ x h with h | h
    · rcases enqueueStep_mem M v q l x h with h | rfl
      · exact Or.inl h
      · exact Or.inr (by simp)
    · exact Or.inr (by simp [h])

/-! ### Fetch retry lemmas -/

theorem fetch_go_all_fail (R D : Nat) (outcome : Nat → FetchAttempt)
    (hfail : ∀ n, n ≤ R → outcome n = .requestError) :
    ∀ fuel attempt sleeps, attempt + fuel = R + 1 →
      fetch_go R D outcome attempt fuel sleeps =
        (none, R + 1, sleeps ++ (List.range' (attempt + 1) (R - attempt)).map (fun n => D * n)) := by
  intro fuel
  induction fuel with
  | zero =>
    intro attempt sleeps h
    have ha : attempt = R + 1 := by omega
    subst ha
    have h0 : R - (R + 1) = 0 := by omega
    simp [fetch_go, h0]
  | succ fuel ih =>
    intro attempt sleeps h
    unfold fetch_go
    rw [hfail attempt (by omega)]
    simp only
    by_cases hlt : attempt < R
    · rw [if_pos hlt, ih (attempt + 1) _ (by omega)]
      have hR : R - attempt = (R - (attempt + 1)) + 1 := by omega
      rw [hR, List.range'_succ]
      simp [List.append_assoc]
    · rw [if_neg hlt]
      have haR : attempt = R := by omega
      subst haR
      simp


/-! ### Crawl-loop lemmas -/

theorem crawl_loop_zero (cfg : Config) (world : World) (s : CrawlState) :
    crawl_loop cfg world 0 s = .ok s := rfl

theorem crawl_loop_empty (cfg : Config) (world : World) (s : CrawlState)
    (h : s.queue = []) : ∀ fuel, crawl_loop cfg world fuel s = .ok s := by
  intro fuel
  cases fuel with
  | zero => rfl
  | succ fuel => simp only [crawl_loop, h]

theorem crawl_loop_budget (cfg : Config) (world : World) (s : CrawlState)
    (h : cfg.MAX_PAGES ≤ s.processed) : ∀ fuel, crawl_loop cfg world fuel s = .ok s := by
  intro fuel
  cases fuel with
  | zero => rfl
  | succ fuel =>
    cases hq : s.queue with
    | nil => simp only [crawl_loop, hq]
    | cons url rest =>
      simp only [crawl_loop, hq]
      rw [if_neg]
      intro hc
      omega

theorem normalize_url_asString (l : List Char) :
    (normalizeL l).asString = normalize_url (l.asString) := rfl

theorem processHref_norm (cfg : Config) (visited : List String) (base : String)
    (links : List String) (href : String)
    (hl : ∀ x ∈ links, ∃ w, x = normalize_url w) :
    ∀ y ∈ processHref cfg visited base links href, ∃ w, y = normalize_url w := by
  intro y hy
  simp only [processHref] at hy
  repeat' split at hy
  all_goals first
    | exact hl y hy
    | (rcases List.mem_append.mp hy with h | h
       · exact hl y h
       · simp only [List.mem_singleton] at h
         exact ⟨List.asString (urljoinL base.data
           (splitAtFirst (fun x => decide (x = '#')) href.data).1), h.trans rfl⟩)

theorem extract_links_norm (cfg : Config) (visited : List String) (hrefs : List String)
    (base : String) :
    ∀ x ∈ extract_links cfg visited hrefs base, ∃ w, x = normalize_url w := by
  unfold extract_links
  suffices hgen : ∀ (hs : List String) (links : List String),
      (∀ x ∈ links, ∃ w, x = normalize_url w) →
      ∀ x ∈ hs.foldl (processHref cfg visited base) links, ∃ w, x = normalize_url w by
    intro x hx
    exact hgen hrefs [] (by simp) x hx
  intro hs
  induction hs with
  | nil =>
    intro links hl x hx
    exact hl x hx
  | cons href rest ih =>
    intro links hl x hx
    rw [List.foldl_cons] at hx
    exact ih _ (processHref_norm cfg visited base links href hl) x hx

theorem load_processed_norm (logLines : Option (List String)) :
    ∀ x ∈ load_processed_urls_from_log logLines, ∃ w, x = normalize_url w := by
  unfold load_processed_urls_from_log
  match logLines with
  | none => simp
  | some lines =>
    suffices hgen : ∀ (ls : List String) (visited : List String),
        (∀ x ∈ visited, ∃ w, x = normalize_url w) →
        ∀ x ∈ ls.foldl (fun visited line =>
            match searchSuccess line.data with
            | some url => setInsert visited (normalize_url url.asString)
            | none => visited) visited, ∃ w, x = normalize_url w by
      intro x hx
      exact hgen lines [] (by simp) x hx
    intro ls
    induction ls with
    | nil =>
      intro visited hv x hx
      exact hv x hx
    | cons line rest ih =>
      intro visited hv x hx
      rw [List.foldl_cons] at hx
      rcases hs : searchSuccess line.data with _ | url
      · rw [hs] at hx
        exact ih _ hv x hx
      · rw [hs] at hx
        refine ih _ ?_ x hx
        intro y hy
        have hy2 : y ∈ setInsert visited (normalize_url url.asString) := hy
        unfold setInsert at hy2
        split at hy2
        · exact hv y hy2
        · rcases List.mem_append.mp hy2 with h2 | h2
          · exact hv y h2
          · simp only [List.mem_singleton] at h2
            exact ⟨url.asString, h2⟩

/-- Fuel sufficiency: with fuel exceeding `loopMeasure`, the loop answers `.ok`
only on states where the `while` guard has become false. -/
theorem crawl_loop_halting (cfg : Config) (world : World) :
    ∀ fuel s, loopMeasure cfg s < fuel → ∀ s', crawl_loop cfg world fuel s = .ok s' →
      s'.queue = [] ∨ cfg.MAX_PAGES ≤ s'.visited_urls.length ∨
        cfg.MAX_PAGES ≤ s'.processed := by
  intro fuel
  induction fuel with
  | zero =>
    intro s h
    omega
  | succ fuel ih =>
    intro s hm s' hok
    cases hq : s.queue with
    | nil =>
      rw [crawl_loop_empty cfg world s hq] at hok
      cases hok
      exact Or.inl hq
    | cons url rest =>
      simp only [crawl_loop, hq] at hok
      by_cases hguard : s.visited_urls.length < cfg.MAX_PAGES ∧ s.processed < cfg.MAX_PAGES
      · rw [if_pos hguard] at hok
        have hmq : s.queue.length = rest.length + 1 := by rw [hq]; rfl
        rcases crawl_step_spec cfg world s url rest with
          ⟨_, hstep⟩ | ⟨_, _, _, hstep⟩ | ⟨html, page, mdF, _, _, _, _, _, hstep⟩ | ⟨e, hstep⟩
        · rw [hstep] at hok
          refine ih _ ?_ s' hok
          unfold loopMeasure at hm ⊢
          simp only
          omega
        · rw [hstep] at hok
          refine ih _ ?_ s' hok
          unfold loopMeasure at hm ⊢
          simp only
          omega
        · rw [hstep] at hok
          refine ih _ ?_ s' hok
          unfold loopMeasure at hm ⊢
          simp only
          have hlen := enqueue_links_len cfg.MAX_PAGES (s.visited_urls ++ [url])
            (extract_links cfg (s.visited_urls ++ [url]) (world.hrefs html) url) rest
          simp only [List.length_append, List.length_cons, List.length_nil] at hlen
          have hp : s.processed < cfg.MAX_PAGES := hguard.2
          have hbi : (cfg.MAX_PAGES - s.processed) * (3 * cfg.MAX_PAGES + 2) =
              (cfg.MAX_PAGES - (s.processed + 1)) * (3 * cfg.MAX_PAGES + 2) +
                (3 * cfg.MAX_PAGES + 2) := by
            have h1 : cfg.MAX_PAGES - s.processed =
                (cfg.MAX_PAGES - (s.processed + 1)) + 1 := by omega
            rw [h1, Nat.add_mul, Nat.one_mul]
          omega
        · rw [hstep] at hok
          cases hok
      · rw [if_neg hguard] at hok
        cases hok
        rw [not_and_or] at hguard
        rcases hguard with h | h
        · exact Or.inr (Or.inl (by omega))
        · exact Or.inr (Or.inr (by omega))

/-- If every queued URL has already been visited, the loop drains its queue without
fetching, visiting or recording anything. -/
theorem crawl_loop_drain (cfg : Config) (world : World) :
    ∀ fuel s, (∀ u ∈ s.queue, u ∈ s.visited_urls) →
      ∃ q', crawl_loop cfg world fuel s =
        .ok { s with queue := q' } := by
  intro fuel
  induction fuel with
  | zero =>
    intro s h
    exact ⟨s.queue, rfl⟩
  | succ fuel ih =>
    intro s h
    cases hq : s.queue with
    | nil =>
      refine ⟨[], ?_⟩
      rw [crawl_loop_empty cfg world s hq fuel.succ]
      rw [← hq]
    | cons url rest =>
      simp only [crawl_loop, hq]
      by_cases hguard : s.visited_urls.length < cfg.MAX_PAGES ∧ s.processed < cfg.MAX_PAGES
      · rw [if_pos hguard]
        have hv : url ∈ s.visited_urls := h url (by rw [hq]; simp)
        have hstep : crawl_step cfg world s url rest = .ok { s with queue := rest } := by
          simp [crawl_step, hv]
        rw [hstep]
        obtain ⟨q', hq'⟩ := ih { s with queue := rest }
          (fun u hu => h u (by rw [hq]; simp; right; exact hu))
        exact ⟨q', hq'⟩
      · rw [if_neg hguard]
        exact ⟨s.queue, rfl⟩

/-- Preservation of the provenance / duplicate-freedom invariant along the loop. -/
theorem crawl_loop_inv (cfg : Config) (world : World) :
    ∀ fuel s s', LoopInv cfg world s → crawl_loop cfg world fuel s = .ok s' →
      LoopInv cfg world s' := by
  intro fuel
  induction fuel with
  | zero =>
    intro s s' hinv hok
    cases hok
    exact hinv
  | succ fuel ih =>
    intro s s' hinv hok
    cases hq : s.queue with
    | nil =>
      rw [crawl_loop_empty cfg world s hq] at hok
      cases hok
      exact hinv
    | cons url rest =>
      simp only [crawl_loop, hq] at hok
      by_cases hguard : s.visited_urls.length < cfg.MAX_PAGES ∧ s.processed < cfg.MAX_PAGES
      · rw [if_pos hguard] at hok
        have hurlq : url ∈ s.queue := by rw [hq]; simp
        have hrestq : ∀ u ∈ rest, u ∈ s.queue := by
          intro u hu
          rw [hq]
          simp [hu]
        rcases crawl_step_spec cfg world s url rest with
          ⟨_, hstep⟩ | ⟨hv, _, _, hstep⟩ |
          ⟨html, page, mdF, hv, _, hf, hh, hb, hstep⟩ | ⟨e, hstep⟩
        · rw [hstep] at hok
          refine ih _ s' ?_ hok
          exact ⟨hinv.visited_ok, fun u hu => hinv.queue_ok u (hrestq u hu),
            hinv.pages_nodup, hinv.pages_visited, hinv.pages_shape⟩
        · rw [hstep] at hok
          refine ih _ s' ?_ hok
          refine ⟨?_, fun u hu => hinv.queue_ok u (hrestq u hu), hinv.pages_nodup, ?_, ?_⟩
          · intro u hu
            rcases List.mem_append.mp hu with h2 | h2
            · exact hinv.visited_ok u h2
            · simp only [List.mem_singleton] at h2
              subst h2
              exact hinv.queue_ok u hurlq
          · intro p hp
            exact List.mem_append.mpr (Or.inl (hinv.pages_visited p hp))
          · exact hinv.pages_shape
        · rw [hstep] at hok
          refine ih _ s' ?_ hok
          obtain ⟨hshape1, hshape2, hshape3⟩ := buildPage_shape hb
          refine ⟨?_, ?_, ?_, ?_, ?_⟩
          · intro u hu
            simp only at hu
            rcases List.mem_append.mp hu with h2 | h2
            · exact hinv.visited_ok u h2
            · simp only [List.mem_singleton] at h2
              subst h2
              exact hinv.queue_ok u hurlq
          · intro u hu
            simp only at hu
            rcases enqueue_links_mem _ _ _ _ _ hu with h2 | h2
            · exact hinv.queue_ok u (hrestq u h2)
            · obtain ⟨w, hw⟩ := extract_links_norm cfg (s.visited_urls ++ [url])
                (world.hrefs html) url u h2
              exact Or.inr ⟨w, hw⟩
          · simp only [List.map_append, List.map_cons, List.map_nil]
            rw [List.nodup_append]
            refine ⟨hinv.pages_nodup, by simp, ?_⟩
            intro a ha hb2
            simp only [List.mem_singleton] at hb2
            subst hb2
            rw [hshape1] at ha
            rcases List.mem_map.mp ha with ⟨p, hp, hpu⟩
            exact hv (by rw [← hpu]; exact hinv.pages_visited p hp)
          · intro p hp
            simp only at hp ⊢
            rcases List.mem_append.mp hp with h2 | h2
            · exact List.mem_append.mpr (Or.inl (hinv.pages_visited p h2))
            · simp only [List.mem_singleton] at h2
              subst h2
              rw [hshape1]
              exact List.mem_append.mpr (Or.inr (by simp))
          · intro p hp
            simp only at hp
            rcases List.mem_append.mp hp with h2 | h2
            · exact hinv.pages_shape p h2
            · simp only [List.mem_singleton] at h2
              subst h2
              rw [hshape1]
              exact ⟨html, hf, hh, hshape2, hshape3⟩
        · rw [hstep] at hok
          cases hok
      · rw [if_neg hguard] at hok
        cases hok
        exact hinv

theorem crawl_step_isOk (cfg : Config) (world : World)
    (hC : ∀ h, ∃ t, world.extractText h = .ok t)
    (s : CrawlState) (url : String) (rest : List String) (e : String) :
    crawl_step cfg world s url rest ≠ .error e := by
  intro he
  by_cases hv : url ∈ s.visited_urls
  · simp [crawl_step, hv] at he
  · by_cases ha : world.allowed url = true
    · rcases hf : world.fetchOutcome url with _ | html
      · simp [crawl_step, hv, ha, hf] at he
      · by_cases hh : html = ""
        · simp [crawl_step, hv, ha, hf, hh] at he
        · obtain ⟨⟨page, mdF⟩, hb⟩ := @buildPage_isOk world url html (hC html)
          simp [crawl_step, hv, ha, hf, hh, hb] at he
    · have ha2 : world.allowed url = false := by simpa using ha
      simp [crawl_step, hv, ha2] at he

/-- When content extraction never throws, the loop returns `.ok`; when additionally
every title lookup throws, every new page record's title equals its URL. -/
theorem crawl_loop_title_ok (cfg : Config) (world : World)
    (hT : ∀ h, world.soupTitle h = .error ())
    (hC : ∀ h, ∃ t, world.extractText h = .ok t) :
    ∀ fuel s, (∀ p ∈ s.pages, p.title = p.html_url) →
      ∃ s', crawl_loop cfg world fuel s = .ok s' ∧
        ∀ p ∈ s'.pages, p.title = p.html_url := by
  intro fuel
  induction fuel with
  | zero =>
    intro s h
    exact ⟨s, rfl, h⟩
  | succ fuel ih =>
    intro s h
    cases hq : s.queue with
    | nil => exact ⟨s, crawl_loop_empty cfg world s hq _, h⟩
    | cons url rest =>
      by_cases hguard : s.visited_urls.length < cfg.MAX_PAGES ∧ s.processed < cfg.MAX_PAGES
      · rcases crawl_step_spec cfg world s url rest with
          ⟨_, hstep⟩ | ⟨_, _, _, hstep⟩ |
          ⟨html, page, mdF, _, _, hf, hh, hb, hstep⟩ | ⟨e, hstep⟩
        · simp only [crawl_loop, hq, if_pos hguard, hstep]
          exact ih _ h
        · simp only [crawl_loop, hq, if_pos hguard, hstep]
          exact ih _ h
        · obtain ⟨hshape1, hshape2, _⟩ := buildPage_shape hb
          have htitle : page.title = page.html_url := by
            rw [hshape1, hshape2, extract_title_of_soup_error (hT html)]
            rfl
          have hnext : ∀ p ∈ s.pages ++ [page], p.title = p.html_url := by
            intro p hp
            rcases List.mem_append.mp hp with h2 | h2
            · exact h p h2
            · simp only [List.mem_singleton] at h2
              subst h2
              exact htitle
          simp only [crawl_loop, hq, if_pos hguard, hstep]
          exact ih _ hnext
        · exact absurd hstep (crawl_step_isOk cfg world hC s url rest e)
      · refine ⟨s, ?_, h⟩
        simp only [crawl_loop, hq, if_neg hguard]


/-! ### Helper lemmas shared by the claim theorems -/

theorem setUpdate_mem {s xs : List String} {x : String} (h : x ∈ setUpdate s xs) :
    x ∈ s ∨ x ∈ xs := by
  unfold setUpdate at h
  induction xs generalizing s with
  | nil => exact Or.inl h
  | cons a as ih =>
    rw [List.foldl_cons] at h
    rcases ih h with h2 | h2
    · unfold setInsert at h2
      split at h2
      · exact Or.inl h2
      · rcases List.mem_append.mp h2 with h3 | h3
        · exact Or.inl h3
        · simp only [List.mem_singleton] at h3
          exact Or.inr (by simp [h3])
    · exact Or.inr (by simp [h2])

theorem pyOrStr_ne_empty (x : Option String) (y : String) (hy : y ≠ "") :
    pyOrStr x y ≠ "" := by
  rcases x with _ | s
  · simpa [pyOrStr] using hy
  · simp only [pyOrStr]
    split
    · exact hy
    · next hs => exact hs

theorem crawl_inv (cfg : Config) (world : World) (restart : Bool)
    (logLines : Option (List String)) (run : CrawlState)
    (h : crawl cfg world restart logLines = .ok run) :
    LoopInv cfg world run := by
  simp only [crawl] at h
  refine crawl_loop_inv cfg world _ _ run ⟨?_, ?_, ?_, ?_, ?_⟩ h
  · intro u hu
    by_cases hr : restart = true
    · rw [if_pos hr] at hu
      rcases setUpdate_mem hu with h2 | h2
      · simp at h2
      · obtain ⟨w, hw⟩ := load_processed_norm logLines u h2
        exact Or.inr ⟨w, hw⟩
    · rw [if_neg hr] at hu
      simp at hu
  · intro u hu
    exact Or.inl (List.mem_singleton.mp hu)
  · simp
  · intro p hp
    simp at hp
  · intro p hp
    simp at hp

/-! ### The claim theorems -/

/-- Claim C1 (code_bug).  The claim — and the repository's own test
`test_extract_links_heuristic_repetitive_path_segments` — expect the path
`/a/b/c/c/c` (5 segments, last three identical, 3 occurrences > 5/2) to be rejected
by the heuristic-repetition rule with the adjacent guard disabled.  The code
(crawler.py:209) gates the whole heuristic behind `len(path_segments) > 5`, so a
5-segment path is never examined and the link is returned. -/
theorem C1_heuristic_misses_five_segments :
    extract_links c1Cfg [] ["https://example.com/a/b/c/c/c"] "https://example.com/" =
      ["https://example.com/a/b/c/c/c"] := by
  rfl

/-- Claim C2 (code_bug).  The claim — and the repository's own test
`test_extract_links_skip_adjacent_repetitive_paths` — expect `/a/a/a/page` to be
rejected when the adjacent-repeated-segment guard is enabled.  In the code the
`continue` at crawler.py:201 sits inside the inner `for i` loop, so the guard block
only logs and never skips the link: the link is returned with the guard enabled
exactly as with it disabled, although its segment list does contain an adjacent
triple (third conjunct). -/
theorem C2_adjacent_guard_is_noop :
    extract_links c2CfgOn [] ["https://example.com/a/a/a/page"] "https://example.com/" =
      ["https://example.com/a/a/a/page"] ∧
    extract_links c2CfgOff [] ["https://example.com/a/a/a/page"] "https://example.com/" =
      ["https://example.com/a/a/a/page"] ∧
    hasAdjacentTriple (pySplit '/' (pyStripChar '/'
      (urlparseL [] "https://example.com/a/a/a/page".data).path)) = true :=
  ⟨rfl, rfl, rfl⟩

/-- Claim C3 (corrected): with the marker cased as the logger writes it
(`Successfully fetched: ` — the resume regex of crawler.py:239 is case-sensitive),
the Resume Loader returns exactly the claimed singleton, and a restart-mode crawl
with that seed performs zero fetches and records zero Page Records. -/
theorem C3_resume_case_sensitive :
    load_processed_urls_from_log (some [c3LogLine]) = ["https://example.com/x"] ∧
    crawl c3Cfg c3FetchWorld true (some [c3LogLine]) =
      .ok { visited_urls := ["https://example.com/x"], queue := [], pages := [],
            processed := 0, fetchLog := [] } :=
  ⟨rfl, rfl⟩

/-- Claim C3, counterexample to the claim as stated: a log line with the lowercase
marker `successfully fetched:` (the claim's wording) matches nothing — the resume
set is empty, not the claimed singleton — and the crawl then re-fetches the seed
and records one Page Record instead of zero. -/
theorem C3_lowercase_marker_not_matched :
    load_processed_urls_from_log (some [c3LogLineLower]) = [] ∧
    (match crawl c3Cfg c3FetchWorld true (some [c3LogLineLower]) with
     | .ok run => decide (run.fetchLog = ["https://example.com/x"] ∧
         run.pages.length = 1)
     | .error _ => false) = true :=
  ⟨rfl, rfl⟩

/-- Claim C4 (corrected): the title half of the claim.  When the title lookup
(BeautifulSoup in `extract_title_from_html`, crawler.py:108-120) raises on every
page, the crawl still completes — the exception is swallowed and every recorded
page degrades its title to its own URL.  (The content half of the claim is refuted
by `C4_content_throw_aborts_crawl`.) -/
theorem C4_title_throw_nonfatal (cfg : Config) (world : World)
    (hT : ∀ h, world.soupTitle h = .error ())
    (hC : ∀ h, ∃ t, world.extractText h = .ok t)
    (restart : Bool) (logLines : Option (List String)) :
    ∃ run, crawl cfg world restart logLines = .ok run ∧
      ∀ p ∈ run.pages, p.title = p.html_url := by
  simp only [crawl]
  exact crawl_loop_title_ok cfg world hT hC _ _ (by simp)

/-- Claim C4, witness: in the concrete world where every title lookup raises and
content extraction succeeds, the crawl returns successfully and every page's title
is its URL. -/
theorem C4_witness :
    ∃ run, crawl c4Cfg c4TitleThrowWorld false none = .ok run ∧
      ∀ p ∈ run.pages, p.title = p.html_url :=
  C4_title_throw_nonfatal c4Cfg c4TitleThrowWorld (fun _ => rfl)
    (fun _ => ⟨"body text", rfl⟩) false none

/-- Claim C4, counterexample to the claim as stated: content extraction
(`extract_main_content`, crawler.py:103-106) has no try/except, so a page whose
HTML makes readability raise aborts the whole crawl with that exception instead of
degrading to empty content. -/
theorem C4_content_throw_aborts_crawl :
    crawl c4Cfg c4World false none = .error "lxml document is empty" := by
  rfl

/-- Claim C5 (corrected): every URL in the final Visited Set is the seed URL
(enqueued verbatim, crawler.py:271 — not normalized, which refutes the claim as
stated) or the image of `normalize_url`; and no URL appears in two entries of the
rendered index *as the page URL* — the rendered link target
(`md_url or html_url`, crawler.py:351) can repeat, which also refutes the claim as
stated (see the counterexample). -/
theorem C5_visited_provenance (cfg : Config) (world : World) (restart : Bool)
    (logLines : Option (List String)) (run : CrawlState)
    (h : crawl cfg world restart logLines = .ok run) :
    (∀ u ∈ run.visited_urls, u = cfg.BASE_URL ∨ ∃ w, u = normalize_url w) ∧
    (run.pages.map PageRecord.html_url).Nodup := by
  have hinv := crawl_inv cfg world restart logLines run h
  exact ⟨fun u hu => hinv.visited_ok u hu, hinv.pages_nodup⟩

/-- Claim C5, witness: for a concrete restart-mode run the visited URL is the image
of `normalize_url`, and the page-URL list of the (empty) index is duplicate-free. -/
theorem C5_witness :
    ("https://example.com/x" = c3Cfg.BASE_URL ∨
      ∃ w, "https://example.com/x" = normalize_url w) ∧
    (([] : List PageRecord).map PageRecord.html_url).Nodup :=
  ⟨(C5_visited_provenance c3Cfg quietWorld true (some [c3LogLine])
      { visited_urls := ["https://example.com/x"], queue := [], pages := [],
        processed := 0, fetchLog := [] } rfl).1 "https://example.com/x" (by decide),
   (C5_visited_provenance c3Cfg quietWorld true (some [c3LogLine])
      { visited_urls := ["https://example.com/x"], queue := [], pages := [],
        processed := 0, fetchLog := [] } rfl).2⟩

/-- Claim C5, counterexample to the claim as stated: with seed
`https://example.com/?q=1` the final Visited Set contains that URL verbatim
(normalizing it again strips the query, so it is not in normalized form), and the
pages `/d/` and `/d/index.html` share the markdown sibling
`/d/index.html.md`, so two distinct entries of the rendered index carry the same
link URL. -/
theorem C5_seed_unnormalized_and_duplicate_index_links :
    (match crawl c5Cfg c5World false none with
     | .ok run => decide ((∃ u ∈ run.visited_urls, ¬ normalize_url u = u) ∧
         ¬ (indexLinkUrls run.pages).Nodup)
     | .error _ => false) = true := by
  rfl

/-- Claim C6 (confirmed): a link is appended to the frontier only while
`2 * (visited + frontier) < 3 * MAX_PAGES` — i.e. `visited + frontier` is strictly
below `1.5 × MAX_PAGES` (crawler.py:330) — and once the bound is reached the whole
batch of discovered links is dropped, returning the queue unchanged and no error. -/
theorem C6_frontier_cap :
    (∀ (M : Nat) (v q : List String) (l : String), enqueueStep M v q l ≠ q →
        2 * (v.length + q.length) < 3 * M ∧ enqueueStep M v q l = q ++ [l]) ∧
    (∀ (M : Nat) (v q links : List String), 3 * M ≤ 2 * (v.length + q.length) →
        enqueue_links M v q links = q) :=
  ⟨enqueueStep_spec, enqueue_links_of_full⟩

/-- Claim C6, witness: under the bound a new link is appended; at the bound a batch
of two links is dropped without error. -/
theorem C6_witness :
    (2 * ((["a"] : List String).length + (["b"] : List String).length) < 3 * 2 ∧
      enqueueStep 2 ["a"] ["b"] "c" = ["b"] ++ ["c"]) ∧
    enqueue_links 1 ["a"] ["b"] ["c", "d"] = ["b"] :=
  ⟨C6_frontier_cap.1 2 ["a"] ["b"] "c" (by decide),
   C6_frontier_cap.2 1 ["a"] ["b"] ["c", "d"] (by decide)⟩

/-- Claim C7 (confirmed): when every attempt raises a transport error, `fetch_page`
makes exactly `REQUEST_RETRIES + 1` attempts, sleeps `REQUEST_DELAY * n` after the
n-th failed attempt for n = 1..REQUEST_RETRIES (crawler.py:170: linear backoff),
and returns the failure value `none` instead of raising. -/
theorem C7_fetch_retry_schedule (R D : Nat) (outcome : Nat → FetchAttempt)
    (hfail : ∀ n, n ≤ R → outcome n = .requestError) :
    fetch_page R D outcome =
      (none, R + 1, (List.range' 1 R).map (fun n => D * n)) := by
  unfold fetch_page
  have h := fetch_go_all_fail R D outcome hfail (R + 1) 0 [] (by omega)
  simpa using h

/-- Claim C7, witness: 2 retries at delay 5 make 3 attempts and sleep 5 then 10. -/
theorem C7_witness :
    fetch_page 2 5 (fun _ => FetchAttempt.requestError) = (none, 3, [5, 10]) := by
  rw [C7_fetch_retry_schedule 2 5 (fun _ => FetchAttempt.requestError)
    (fun _ _ => rfl)]
  decide

/-- Claim C8 (confirmed): the crawl loop halts on an empty frontier whatever the
progress count, halts once the page budget is reached even with a non-empty
frontier, and the fuel `crawl` supplies is sufficient: whenever `crawl` returns a
state, the while-guard has become false — the frontier is empty or a budget bound
is reached. -/
theorem C8_termination :
    (∀ (cfg : Config) (world : World) (s : CrawlState), s.queue = [] →
        ∀ fuel, crawl_loop cfg world fuel s = .ok s) ∧
    (∀ (cfg : Config) (world : World) (s : CrawlState), cfg.MAX_PAGES ≤ s.processed →
        ∀ fuel, crawl_loop cfg world fuel s = .ok s) ∧
    (∀ (cfg : Config) (world : World) (restart : Bool)
        (logLines : Option (List String)) (s' : CrawlState),
        crawl cfg world restart logLines = .ok s' →
        s'.queue = [] ∨ cfg.MAX_PAGES ≤ s'.visited_urls.length ∨
          cfg.MAX_PAGES ≤ s'.processed) := by
  refine ⟨crawl_loop_empty, crawl_loop_budget, ?_⟩
  intro cfg world restart logLines s' h
  simp only [crawl] at h
  exact crawl_loop_halting cfg world _ _ (by unfold crawlFuel loopMeasure; omega) s' h

/-- Claim C8, witness: a loop on an empty frontier halts unchanged; a loop at the
page budget halts with its frontier still non-empty; a finished concrete crawl
satisfies the guard-false disjunction. -/
theorem C8_witness :
    crawl_loop c3Cfg quietWorld 5
        { visited_urls := ["u"], queue := [], pages := [], processed := 0,
          fetchLog := [] } =
      .ok { visited_urls := ["u"], queue := [], pages := [], processed := 0,
            fetchLog := [] } ∧
    crawl_loop c3Cfg quietWorld 5
        { visited_urls := [], queue := ["v"], pages := [], processed := 10,
          fetchLog := [] } =
      .ok { visited_urls := [], queue := ["v"], pages := [], processed := 10,
            fetchLog := [] } ∧
    (({ visited_urls := [],
        queue := [],
        pages := [],
        processed := 0,
        fetchLog := [] } : CrawlState).queue = [] ∨
      c3Cfg.MAX_PAGES ≤
        ({ visited_urls := [],
           queue := [],
           pages := [],
           processed := 0,
           fetchLog := [] } : CrawlState).visited_urls.length ∨
      c3Cfg.MAX_PAGES ≤
        ({ visited_urls := [],
           queue := [],
           pages := [],
           processed := 0,
           fetchLog := [] } : CrawlState).processed) :=
  ⟨C8_termination.1 c3Cfg quietWorld _ rfl 5,
   C8_termination.2.1 c3Cfg quietWorld _ (by decide) 5,
   C8_termination.2.2 c3Cfg quietWorld false none _ rfl⟩

/-- Claim C9 (corrected): normalization is idempotent on every URL whose parse has
a non-empty scheme (every URL the crawler feeds it; a schemeless URL is a
counterexample, see `C9_schemeless_not_idempotent`); the normalized form never
contains a `?` or `#`; and fragment/query removal is total: a query suffix, a
fragment suffix, or both together (any `?query#fragment` tail on a base holding
neither marker, the query itself `#`-free as in any URL, since `#` always begins
the fragment) leave the normal form that of the base — so two URLs differing only
in their query/fragment suffixes normalize to the same value (last conjunct). -/
theorem C9_normalize_algebra :
    (∀ u : String, (urlparseL [] u.data).scheme ≠ [] →
        normalize_url (normalize_url u) = normalize_url u) ∧
    (∀ url : List Char, '#' ∉ normalizeL url ∧ '?' ∉ normalizeL url) ∧
    (∀ u q : List Char, '#' ∉ u → '?' ∉ u → '#' ∉ q →
        normalizeL (u ++ '?' :: q) = normalizeL u) ∧
    (∀ u f : List Char, '#' ∉ u → '?' ∉ u →
        normalizeL (u ++ '#' :: f) = normalizeL u) ∧
    (∀ u q f : List Char, '#' ∉ u → '?' ∉ u → '#' ∉ q →
        normalizeL (u ++ '?' :: q ++ '#' :: f) = normalizeL u) ∧
    (∀ u q1 f1 q2 f2 : List Char, '#' ∉ u → '?' ∉ u → '#' ∉ q1 → '#' ∉ q2 →
        normalizeL (u ++ '?' :: q1 ++ '#' :: f1) =
          normalizeL (u ++ '?' :: q2 ++ '#' :: f2)) := by
  refine ⟨?_, normalizeL_no_qf, normalizeL_append_query, normalizeL_append_fragment,
    normalizeL_append_query_fragment, ?_⟩
  · intro u h
    show (normalizeL (normalizeL u.data)).asString = (normalizeL u.data).asString
    rw [normalizeL_idem_of_scheme u.data h]
  · intro u q1 f1 q2 f2 h1 h2 h3 h4
    rw [normalizeL_append_query_fragment u q1 f1 h1 h2 h3,
      normalizeL_append_query_fragment u q2 f2 h1 h2 h4]

/-- Claim C9, witness: idempotence on a URL with scheme, query and fragment, and
query-insensitivity at a concrete URL/query pair. -/
theorem C9_witness :
    normalize_url (normalize_url "https://example.com/a?q=1#f") =
      normalize_url "https://example.com/a?q=1#f" ∧
    normalizeL ("https://example.com/a".data ++ '?' :: "q=1".data ++ '#' :: "f".data) =
      normalizeL "https://example.com/a".data ∧
    normalizeL ("https://example.com/a".data ++ '?' :: "q=1".data ++ '#' :: "f".data) =
      normalizeL ("https://example.com/a".data ++ '?' :: "r=2".data ++ '#' :: "g".data) :=
  ⟨C9_normalize_algebra.1 "https://example.com/a?q=1#f" (by decide),
   C9_normalize_algebra.2.2.2.2.1 "https://example.com/a".data "q=1".data "f".data
     (by decide) (by decide) (by decide),
   C9_normalize_algebra.2.2.2.2.2 "https://example.com/a".data "q=1".data "f".data
     "r=2".data "g".data (by decide) (by decide) (by decide) (by decide)⟩

/-- Claim C9, counterexample to the claim as stated: for the schemeless URL
`example.com/a` the normalizer returns `://example.com/a`, which is not a fixed
point — `normalize(normalize(u)) != normalize(u)`. -/
theorem C9_schemeless_not_idempotent :
    normalize_url (normalize_url "example.com/a") ≠ normalize_url "example.com/a" := by
  decide

/-- Claim C10 (confirmed): every recorded page's title is the Python `or` of the
extracted, whitespace-normalized title and the page's URL (crawler.py:299-300), so
whenever the page's URL is non-empty — every crawler URL starts with its scheme —
the title is non-empty, giving every rendered index entry a non-empty link label. -/
theorem C10_page_title_nonempty (cfg : Config) (world : World) (restart : Bool)
    (logLines : Option (List String)) (run : CrawlState)
    (h : crawl cfg world restart logLines = .ok run) :
    ∀ p ∈ run.pages, ∃ html, world.fetchOutcome p.html_url = some html ∧ html ≠ "" ∧
      p.title = pyOrStr (extract_title_from_html world.soupTitle html) p.html_url ∧
      (p.html_url ≠ "" → p.title ≠ "") := by
  intro p hp
  obtain ⟨html, hf, hh, ht, _⟩ :=
    (crawl_inv cfg world restart logLines run h).pages_shape p hp
  refine ⟨html, hf, hh, ht, fun hu => ?_⟩
  rw [ht]
  exact pyOrStr_ne_empty _ _ hu

/-- Claim C10, witness: in a concrete one-page run the page's title is the
whitespace-normalized tag text `A Title` — non-empty, backed by the fetched HTML. -/
theorem C10_witness :
    ∃ html, c10World.fetchOutcome "https://example.com/" = some html ∧ html ≠ "" ∧
      "A Title" = pyOrStr (extract_title_from_html c10World.soupTitle html)
        "https://example.com/" ∧
      ("https://example.com/" ≠ "" → "A Title" ≠ "") :=
  C10_page_title_nonempty c10Cfg c10World false none
    { visited_urls := ["https://example.com/"],
      queue := [],
      pages := [
        { title := "A Title",
          html_url := "https://example.com/",
          md_url := none,
          content_for_full_txt := "body",
          content_source_type := "html" }],
      processed := 1,
      fetchLog := ["https://example.com/"] } rfl
    { title := "A Title",
      html_url := "https://example.com/",
      md_url := none,
      content_for_full_txt := "body",
      content_source_type := "html" } (by decide)

end Crawler
